import Mathlib

/-!
# Verification of the Vector-Search-Engine repository against its specification

This file shallowly embeds the parts of the Rust sources that the frozen
claims C1..C10 are about, and proves or refutes each claim.

Modelling conventions, used throughout:

* Machine integers (`u32`, `u64`, `usize`) are `Nat`; where a fixed width
  matters (serialization) the width is enforced explicitly via bounds and
  little-endian byte encodings.
* `f32`/`f64` values appear in two roles.  In the serialization layer
  (WAL records, snapshots) a float is never interpreted, only its 4- or
  8-byte bit pattern is copied, so there a float is modelled as its raw
  bit pattern (a `Nat`).  In the HNSW index the only float operations are
  computing Euclidean distances and comparing them; these are modelled
  over exact arithmetic — coordinates range over an arbitrary linear
  ordered commutative ring `K` (every `f32` value is a dyadic rational,
  so `K := ℚ` covers them all; concrete counterexample runs use
  `K := ℤ`), and the distance is the squared Euclidean distance
  (`x ↦ x^2` is strictly monotone on the nonnegative reals, so every
  comparison performed by the code is preserved; the rounding of `f32`
  arithmetic is not modelled).
* Fallible operations (file reads, map lookups that `unwrap`) live in
  `Option`/`Except`; a `none` models a panic or an I/O error.
* Rust `while` loops are modelled with explicit fuel; the fuel passed at
  each call site is proved (or checked by evaluation) to be large enough,
  and exhausted fuel yields `none` (a conservative failure, never a wrong
  answer).
* `std::collections::BinaryHeap` is modelled as a list kept sorted by the
  heap's comparator (ties in insertion order).  The claims under study
  only observe the heap through `len`, `peek`, `pop`, `into_sorted_vec`,
  `into_vec` and `iter().min_by`, all of which are order-insensitive or
  determined up to ties; every concrete run used as a counterexample
  below is tie-free at each such observation.
-/

namespace VSE

/-! ## Router (src/bin/router.rs)

The router's `search` merge and `put` quorum logic.  Network responses
are supplied as oracles (`respond` functions), since the RPC transport is
outside the embedded state machine.
-/

namespace Router

/-- A `SearchResult { id: u32, distance: f32 }` message.  The distance is
an `Option ℚ`: `none` models an `f32` NaN (whose only role in the router
is that `partial_cmp` returns `None` on it). -/
structure SearchResult where
  id : Nat
  distance : Option ℚ
deriving DecidableEq, Repr

/-- The comparator `a.distance.partial_cmp(&b.distance).unwrap_or(Ordering::Equal)`
from `Router::search`: NaN (here `none`) compares as equal to everything. -/
def fcmp : Option ℚ → Option ℚ → Ordering
  | some a, some b => compare a b
  | _, _ => .eq

/-- Insert one element into an already sorted list, after every element
that is `≤` it under `fcmp` (so equal elements keep their original
relative order).  Folding this over the input is a stable sort, which is
what `Vec::sort_by` guarantees. -/
def sortInsert (r : SearchResult) : List SearchResult → List SearchResult
  | [] => [r]
  | s :: rest =>
    if fcmp s.distance r.distance ≠ .gt then s :: sortInsert r rest
    else r :: s :: rest

/-- `all_results.sort_by(|a, b| a.distance.partial_cmp(&b.distance).unwrap_or(Equal))`:
a stable sort by ascending distance. -/
def sortByDistance (l : List SearchResult) : List SearchResult :=
  l.foldl (fun acc r => sortInsert r acc) []

/-- The dedup-and-truncate loop of `Router::search`: push a result if its
id is unseen, then break as soon as `unique_results.len() >= k`.  Note
that the length check runs after each element, including when `k = 0`. -/
def dedupTrunc (k : Nat) : List SearchResult → List Nat → List SearchResult → List SearchResult
  | [], _, acc => acc
  | r :: rest, seen, acc =>
    let p := if r.id ∈ seen then (seen, acc) else (r.id :: seen, acc ++ [r])
    if k ≤ p.2.length then p.2 else dedupTrunc k rest p.1 p.2

/-- The merge performed by `Router::search` on the concatenation of the
per-replica result lists: stable sort by ascending distance, deduplicate
by id keeping the first occurrence, truncate to `k`. -/
def searchMerge (all : List SearchResult) (k : Nat) : List SearchResult :=
  dedupTrunc k (sortByDistance all) [] []

/-- The gRPC status outcomes `Router::put` can produce, with the payload
data the code formats into the message. -/
inductive GStatus where
  | unavailable (msg : String)
  | internal (successes : Nat) (errors : List String)
deriving DecidableEq, Repr

/-- `true` iff a forwarded request succeeded. -/
def isOkB : Except String Unit → Bool
  | .ok _ => true
  | .error _ => false

/-- `Router::put`: the preference-list targets are contacted in order
(`respond t` bundles connection failure and request failure, both of
which push the error string); after contacting all of them, success iff
the count of acknowledgements reached the write quorum `W`, otherwise
`Status::internal` carrying the per-target errors.  An empty preference
list yields `Status::unavailable` up front. -/
def put (targets : List String) (respond : String → Except String Unit) (W : Nat) :
    Except GStatus Unit :=
  if targets = [] then .error (.unavailable "No nodes available")
  else
    let p := targets.foldl
      (fun (p : Nat × List String) t =>
        match respond t with
        | .ok _ => (p.1 + 1, p.2)
        | .error e => (p.1, p.2 ++ [e]))
      (0, [])
    if W ≤ p.1 then .ok () else .error (.internal p.1 p.2)

/-- The number of targets that acknowledged. -/
def ackCount (targets : List String) (respond : String → Except String Unit) : Nat :=
  (targets.filter (fun t => isOkB (respond t))).length

/-- The per-target error strings, in contact order. -/
def errList (targets : List String) (respond : String → Except String Unit) : List String :=
  targets.filterMap (fun t =>
    match respond t with
    | .ok _ => none
    | .error e => some e)

/-- The concatenation of the two per-replica result lists of the spec's
merge example: `[(7, 0.1), (9, 0.3)]` and `[(7, 0.1), (4, 0.2)]`. -/
def exMergeInput : List SearchResult :=
  [⟨7, some (mkRat 1 10)⟩, ⟨9, some (mkRat 3 10)⟩,
    ⟨7, some (mkRat 1 10)⟩, ⟨4, some (mkRat 2 10)⟩]

/-- The "not greater" relation induced by the merge comparator:
`a` may come before `b` in the sorted output. -/
def leD (a b : SearchResult) : Prop := fcmp a.distance b.distance ≠ .gt

/-- The number of ids in a list of results not yet in `seen` (used to
state how many elements the dedup loop can still add). -/
def newIdCount (seen : List Nat) : List SearchResult → Nat
  | [] => 0
  | r :: rest => if r.id ∈ seen then newIdCount seen rest else 1 + newIdCount (r.id :: seen) rest

end Router

/-! ## Write-ahead log (src/wal.rs)

The WAL file content is a `List Nat` of bytes (each `< 256` by
construction on the writing side; the reading side is total on arbitrary
byte lists).  A `WalEntry`'s `Vec<f32>` never has its floats interpreted
— `append` serializes them and `read_all` deserializes them bit for bit —
so each `f32` is modelled as its 4-byte bit pattern, a `Nat < 2^32`.
-/

namespace Wal

/-- One step of CRC-32 (the IEEE/ISO-HDLC variant computed by
`crc32fast::Hasher`): xor in one byte, then eight reflected shift steps
with polynomial `0xEDB88320`. -/
def crcByte (c : Nat) (b : Nat) : Nat :=
  let c := c ^^^ (b % 256)
  (List.range 8).foldl (fun c _ => if c % 2 = 1 then (c / 2) ^^^ 0xEDB88320 else c / 2) c

/-- CRC-32 over a byte sequence: init `0xFFFFFFFF`, bytewise update,
final xor `0xFFFFFFFF`. -/
def crc32 (data : List Nat) : Nat :=
  (data.foldl crcByte 0xFFFFFFFF) ^^^ 0xFFFFFFFF

/-- `k` little-endian bytes of `x` (i.e. `x.to_le_bytes()` truncated to
the low `8k` bits, which is exact when `x < 2^(8k)`). -/
def leBytes : Nat → Nat → List Nat
  | 0, _ => []
  | k + 1, x => (x % 256) :: leBytes k (x / 256)

/-- The value of a little-endian byte list (`u32::from_le_bytes` /
`u64::from_le_bytes`). -/
def leVal (l : List Nat) : Nat :=
  l.foldr (fun b acc => b % 256 + 256 * acc) 0

/-- The WAL operation kind. -/
inductive OpType where
  | Insert
  | Delete
deriving DecidableEq, Repr

/-- A WAL record `{op, vector_id: u32, vector: Vec<f32>}`; each vector
element is the bit pattern of one `f32`. -/
structure WalEntry where
  op : OpType
  vector_id : Nat
  vector : List Nat
deriving DecidableEq, Repr

/-- The in-range conditions every real `WalEntry` satisfies: `u32` fields
fit in 32 bits and the vector is small enough for its byte length to fit
in a `u64`. -/
def WfEntry (e : WalEntry) : Prop :=
  e.vector_id < 2 ^ 32 ∧ (∀ b ∈ e.vector, b < 2 ^ 32) ∧ e.vector.length < 2 ^ 61

/-- bincode's `u32` variant index for the `OpType` enum. -/
def tagOf : OpType → Nat
  | .Insert => 0
  | .Delete => 1

/-- `bincode::serialize(entry)` under bincode 1.x's default configuration
(fixed-width little-endian integers, enum variant tag as `u32`, sequence
length as `u64`): tag, then `vector_id`, then the vector with a length
prefix. -/
def serializeEntry (e : WalEntry) : List Nat :=
  leBytes 4 (tagOf e.op) ++ leBytes 4 e.vector_id ++ leBytes 8 e.vector.length
    ++ (e.vector.map (leBytes 4)).flatten

/-- Read `k` bytes and decode them little-endian; fails on a short input
(`read_exact` semantics inside the deserializer). -/
def readLE (k : Nat) (bytes : List Nat) : Option (Nat × List Nat) :=
  if k ≤ bytes.length then some (leVal (bytes.take k), bytes.drop k) else none

/-- Read `n` consecutive 4-byte values. -/
def readVector : Nat → List Nat → Option (List Nat × List Nat)
  | 0, bytes => some ([], bytes)
  | n + 1, bytes => do
    let (x, rest) ← readLE 4 bytes
    let (xs, rest') ← readVector n rest
    return (x :: xs, rest')

/-- `bincode::deserialize::<WalEntry>(&data)`: parses a prefix of `data`
(bincode's legacy `deserialize` allows trailing bytes); fails on a short
input or an out-of-range enum tag. -/
def deserializeEntry (data : List Nat) : Option WalEntry := do
  let (tag, r1) ← readLE 4 data
  let op ← match tag with
    | 0 => some OpType.Insert
    | 1 => some OpType.Delete
    | _ => none
  let (vid, r2) ← readLE 4 r1
  let (n, r3) ← readLE 8 r2
  let (vec, _) ← readVector n r3
  return ⟨op, vid, vec⟩

/-- The on-disk frame written by `Wal::append`:
`[CRC32 (4B LE)] [length (8B LE)] [payload]`. -/
def encodeRecord (e : WalEntry) : List Nat :=
  let data := serializeEntry e
  leBytes 4 (crc32 data) ++ leBytes 8 data.length ++ data

/-- A WAL file holding exactly the given records. -/
def encodeAll (rs : List WalEntry) : List Nat :=
  (rs.map encodeRecord).flatten

/-- The error kinds `read_all` surfaces mid-stream: a propagated
`UnexpectedEof` from `read_exact` on the length field or the payload, a
CRC mismatch (`InvalidData`), or a bincode deserialization failure.
(An absurdly large length field would make the real code abort while
allocating the payload buffer before reading it; allocation failure is
not modelled, and no claim depends on it.) -/
inductive WalErr where
  | unexpectedEof
  | crcMismatch
  | deserFail
deriving DecidableEq, Repr

/-- The outcome of one iteration of the `read_all` loop. -/
inductive Step where
  | eof
  | fail (err : WalErr)
  | record (e : WalEntry) (rest : List Nat)

/-- One iteration of `read_all`'s loop.  Note the first `read_exact` (the
4-byte CRC): on `UnexpectedEof` the code `break`s, and `read_exact`
reports `UnexpectedEof` whether 0 or 1–3 bytes remain — so any trailing
fragment shorter than 4 bytes ends the loop cleanly. -/
def readStep (bytes : List Nat) : Step :=
  if bytes.length < 4 then .eof
  else
    let crcv := leVal (bytes.take 4)
    let r1 := bytes.drop 4
    if r1.length < 8 then .fail .unexpectedEof
    else
      let len := leVal (r1.take 8)
      let r2 := r1.drop 8
      if r2.length < len then .fail .unexpectedEof
      else
        let data := r2.take len
        if crc32 data ≠ crcv then .fail .crcMismatch
        else
          match deserializeEntry data with
          | none => .fail .deserFail
          | some e => .record e (r2.drop len)

/-- The `read_all` loop with explicit fuel.  Each `record` outcome
consumes at least 12 bytes, so fuel `bytes.length + 1` can never run out;
the fuel-0 value is arbitrary (proved unreachable where it matters). -/
def readAllFuel : Nat → List Nat → Except WalErr (List WalEntry)
  | 0, _ => .error .unexpectedEof
  | fuel + 1, bytes =>
    match readStep bytes with
    | .eof => .ok []
    | .fail err => .error err
    | .record e rest =>
      match readAllFuel fuel rest with
      | .ok es => .ok (e :: es)
      | .error err => .error err

/-- `Wal::read_all` on a file holding the given bytes. -/
def read_all (bytes : List Nat) : Except WalErr (List WalEntry) :=
  readAllFuel (bytes.length + 1) bytes

end Wal


/-! ## HNSW index (src/index/hnsw.rs), operational model

`f32` coordinates range over a linear ordered commutative ring `K` and
the distance is the squared Euclidean distance (see the header).
`HashMap<u32, Arc<RwLock<Node>>>` is an association list with lookup by
key; the `Arc<RwLock<_>>` indirection disappears because the embedded
operations are sequential — a write through a node's lock is an in-place
update of its map entry.  `random_level` draws from a thread RNG, so the
level of each insert is an explicit oracle argument.  The struct's
`level_mult` field is consumed only by `random_level` and is therefore
omitted from the operational state (it reappears, as an `f64` bit
pattern, in the snapshot model).  Every `.unwrap()` map lookup and every
`[]` indexing is `Option`-valued: `none` models a panic.
-/

section HnswModel

variable (K : Type)

/-- A graph node.  The `Node` struct itself is declared outside the
provided sources; its three fields and their types are pinned by the
construction site in `insert`
(`Node { id, vector: vector.clone(), layers: vec![vec![]; level + 1] }`)
and by the spec's "Graph node" data model. -/
structure Node where
  id : Nat
  vector : List K
  layers : List (List Nat)

/-- The `Hnsw` struct (minus `level_mult`, see above). -/
structure Hnsw where
  nodes : List (Nat × Node K)
  entry_point : Option Nat
  max_layers : Nat
  ef_construction : Nat
  m : Nat
  m_max0 : Nat

/-- The `Candidate { id, distance }` pair ordered by distance. -/
structure Cand where
  id : Nat
  distance : K

variable {K}

/-- `euclidean_distance` from src/index/distance.rs, modelled as the
squared distance `‖a − b‖²` (the `.sqrt()` is strictly monotone, so all
comparisons agree; the returned magnitudes differ by that monotone map). -/
def dist [LinearOrderedCommRing K] (a b : List K) : K :=
  ((a.zipWith (fun x y => x - y) b).map (fun x => x * x)).sum

/-- `self.nodes.get(&k)` / `self.nodes[&k]`. -/
def hmFind? (ns : List (Nat × Node K)) (k : Nat) : Option (Node K) :=
  (ns.find? (fun p => p.1 == k)).map (·.2)

/-- `HashMap::insert` (overwrites an existing key). -/
def hmInsert (ns : List (Nat × Node K)) (k : Nat) (v : Node K) : List (Nat × Node K) :=
  ns.filter (fun p => p.1 != k) ++ [(k, v)]

/-- Writing through a node's `RwLock`: replace the value at key `k`. -/
def hmSet (ns : List (Nat × Node K)) (k : Nat) (v : Node K) : List (Nat × Node K) :=
  ns.map (fun p => if p.1 == k then (k, v) else p)

/-- `new_guard.layers[l] = lst` — index assignment, panics out of range. -/
def Node.setLayer? (n : Node K) (l : Nat) (lst : List Nat) : Option (Node K) :=
  if l < n.layers.length then some { n with layers := n.layers.set l lst } else none

variable [LinearOrderedCommRing K]

/-- Push into a max-heap of `Candidate`s, modelled as a list sorted by
descending distance (greatest, i.e. the heap's root, first; ties keep
insertion order). -/
def heapPush (c : Cand K) : List (Cand K) → List (Cand K)
  | [] => [c]
  | x :: rest => if x.distance < c.distance then c :: x :: rest else x :: heapPush c rest

/-- Push into a min-heap (`BinaryHeap<Reverse<Candidate>>`), modelled as
a list sorted by ascending distance. -/
def heapPushMin (c : Cand K) : List (Cand K) → List (Cand K)
  | [] => [c]
  | x :: rest => if c.distance < x.distance then c :: x :: rest else x :: heapPushMin c rest

/-- `candidates.iter().min_by(|a, b| a.distance.partial_cmp(&b.distance).unwrap())`:
the first minimum in iteration order. -/
def listMinBy (l : List (Cand K)) : Option (Cand K) :=
  l.foldl
    (fun acc x =>
      match acc with
      | none => some x
      | some a => if x.distance < a.distance then some x else acc)
    none

/-- The neighbor-visit body of `search_layer`'s loop: skip if visited,
else mark visited, look the neighbor up (`.unwrap()`), and if the result
heap is not full or the neighbor beats its worst entry
(`peek().unwrap()`), push onto both the frontier and the result heap,
evicting the result heap's worst when it exceeds `ef`. -/
def Hnsw.slVisit (self : Hnsw K) (q : List K) (ef : Nat)
    (st : List Nat × List (Cand K) × List (Cand K)) (nid : Nat) :
    Option (List Nat × List (Cand K) × List (Cand K)) :=
  let (visited, cands, nn) := st
  if nid ∈ visited then some st
  else
    let visited := nid :: visited
    match hmFind? self.nodes nid with
    | none => none
    | some nnode =>
      let d := dist q nnode.vector
      let push : Option Bool :=
        if nn.length < ef then some true
        else
          match nn.head? with
          | none => none   -- `peek().unwrap()` on an empty heap
          | some worst => some (decide (d < worst.distance))
      match push with
      | none => none
      | some true =>
        let cands := heapPushMin ⟨nid, d⟩ cands
        let nn := heapPush ⟨nid, d⟩ nn
        let nn := if ef < nn.length then nn.tail else nn
        some (visited, cands, nn)
      | some false => some (visited, cands, nn)

/-- The body of `search_layer`'s `while let Some(Reverse(curr)) =
candidates.pop()` loop.  State: the visited set, the ascending candidate
frontier, the descending result heap `nn`.  Fuel: every queue insertion
is guarded by the visited set, so the pop count is bounded by the number
of node ids; the call site passes `nodes.length + 1`. -/
def Hnsw.searchLayerLoop (self : Hnsw K) (q : List K) (ef : Nat) (layer : Nat) :
    Nat → List Nat → List (Cand K) → List (Cand K) → Option (List (Cand K))
  | 0, _, _, _ => none
  | fuel + 1, visited, cands, nn =>
    match cands with
    | [] => some nn
    | curr :: cands' =>
      let stop : Bool :=
        match nn.head? with
        | some furthest => decide (furthest.distance < curr.distance) && decide (ef ≤ nn.length)
        | none => false
      if stop then some nn
      else
        match hmFind? self.nodes curr.id with
        | none => none
        | some node =>
          match node.layers.get? layer with
          | none => self.searchLayerLoop q ef layer fuel visited cands' nn
          | some neighbors =>
            match neighbors.foldlM (self.slVisit q ef) (visited, cands', nn) with
            | none => none
            | some (visited', cands'', nn') =>
              self.searchLayerLoop q ef layer fuel visited' cands'' nn'

/-- `search_layer(q, entry_point, ef, layer)`. -/
def Hnsw.search_layer (self : Hnsw K) (q : List K) (entry_point : Nat) (ef : Nat)
    (layer : Nat) : Option (List (Cand K)) := do
  let enode ← hmFind? self.nodes entry_point
  let ec : Cand K := ⟨entry_point, dist q enode.vector⟩
  self.searchLayerLoop q ef layer (self.nodes.length + 1) [entry_point] [ec] [ec]

/-- One neighbor comparison of the greedy walk: move to the neighbor if
it is strictly closer than the best seen in this pass. -/
def Hnsw.gpStep (self : Hnsw K) (q : List K) (st : Nat × K × Bool) (nid : Nat) :
    Option (Nat × K × Bool) := do
  let nnode ← hmFind? self.nodes nid
  let nd := dist q nnode.vector
  if nd < st.2.1 then some (nid, nd, true) else some st

/-- One pass of the greedy `while changed` walk (phase 1 of `insert`, and
the descent in `search`): scan the current node's layer-`l` neighbor
list once, moving to any strictly closer neighbor as it is found. -/
def Hnsw.greedyPass (self : Hnsw K) (q : List K) (l : Nat) (ep : Nat) (d : K) :
    Option (Nat × K × Bool) := do
  let node ← hmFind? self.nodes ep
  match node.layers.get? l with
  | none => some (ep, d, false)
  | some neighbors => neighbors.foldlM (self.gpStep q) (ep, d, false)

/-- The greedy walk at one layer, with fuel: every `changed` pass makes
`curr_dist` strictly smaller, so pass count is bounded by the number of
nodes; call sites pass `nodes.length + 1`. -/
def Hnsw.greedyLoop (self : Hnsw K) (q : List K) (l : Nat) :
    Nat → Nat → K → Option (Nat × K)
  | 0, _, _ => none
  | fuel + 1, ep, d => do
    let r ← self.greedyPass q l ep d
    if r.2.2 then self.greedyLoop q l fuel r.1 r.2.1 else some (r.1, r.2.1)

/-- The greedy walk over a descending list of layers. -/
def Hnsw.greedyDescent (self : Hnsw K) (q : List K) (layers : List Nat) (ep : Nat)
    (d : K) : Option (Nat × K) :=
  layers.foldlM
    (fun (st : Nat × K) l => self.greedyLoop q l (self.nodes.length + 1) st.1 st.2)
    (ep, d)

/-- `select_neighbors(candidates, m)`: `into_sorted_vec()` (ascending =
the reversed max-heap list), take `m`, keep the ids. -/
def selectNeighbors (candHeap : List (Cand K)) (m : Nat) : List Nat :=
  (candHeap.reverse.take m).map (·.id)

/-- The pruning block of `insert`: rebuild a heap of the (pushed)
neighbor list keyed by distance to the neighbor's own vector, pop the
greatest while more than `m_max` remain, and store `into_vec()`. -/
def pruneList (self : Hnsw K) (neighbor_vec : List K) (lst : List Nat) (m_max : Nat) :
    Option (List Nat) := do
  let heap ← lst.foldlM
    (fun (h : List (Cand K)) nid => do
      let n ← hmFind? self.nodes nid
      return heapPush ⟨nid, dist neighbor_vec n.vector⟩ h)
    []
  return ((heap.drop (heap.length - m_max)).map (·.id))

/-- One back-link of `insert`: append `id` to the neighbor's layer-`l`
list and prune if it now exceeds `m_max`. -/
def Hnsw.linkOne (id : Nat) (l : Nat) (st : Hnsw K) (nid : Nat) : Option (Hnsw K) := do
  let nnode ← hmFind? st.nodes nid
  let lst ← nnode.layers.get? l
  let lst' := lst ++ [id]
  let m_max := if l = 0 then st.m_max0 else st.m
  if m_max < lst'.length then do
    let pruned ← pruneList st nnode.vector lst' m_max
    let nnode' ← nnode.setLayer? l pruned
    return { st with nodes := hmSet st.nodes nid nnode' }
  else do
    let nnode' ← nnode.setLayer? l lst'
    return { st with nodes := hmSet st.nodes nid nnode' }

/-- The `for &neighbor_id in &neighbors` block of `insert`: append the
new id to each selected neighbor's layer-`l` list and prune it to
`m_max` if it then exceeds `m_max`. -/
def Hnsw.linkNeighbors (self : Hnsw K) (id : Nat) (l : Nat) (neighbors : List Nat) :
    Option (Hnsw K) :=
  neighbors.foldlM (Hnsw.linkOne id l) self

/-- One layer of `insert`'s phase 2: search the layer, select `m`
neighbors, write them as the new node's layer-`l` adjacency, link back,
and pick the next entry point from the candidate heap. -/
def Hnsw.insertLayer (self : Hnsw K) (id : Nat) (vector : List K) (l : Nat)
    (curr_ep : Nat) : Option (Hnsw K × Nat) := do
  let candidates ← self.search_layer vector curr_ep self.ef_construction l
  let neighbors := selectNeighbors candidates self.m
  let nnode ← hmFind? self.nodes id
  let nnode' ← nnode.setLayer? l neighbors
  let self' := { self with nodes := hmSet self.nodes id nnode' }
  let self'' ← self'.linkNeighbors id l neighbors
  let ep' :=
    match listMinBy candidates with
    | some best => best.id
    | none => curr_ep
  return (self'', ep')

/-- `Hnsw::insert(id, vector)` with the drawn `level` as an explicit
oracle. -/
def Hnsw.insert (self : Hnsw K) (id : Nat) (vector : List K) (level : Nat) :
    Option (Hnsw K) := do
  let new_node : Node K := ⟨id, vector, List.replicate (level + 1) []⟩
  let self1 := { self with nodes := hmInsert self.nodes id new_node }
  match self.entry_point with
  | none => some { self1 with entry_point := some id, max_layers := level }
  | some entry_point => do
    let epNode ← hmFind? self1.nodes entry_point
    let curr_dist := dist vector epNode.vector
    let descLayers := (List.range' (level + 1) (self1.max_layers - level)).reverse
    let ep1 ← self1.greedyDescent vector descLayers entry_point curr_dist
    let phase2 := (List.range (min level self1.max_layers + 1)).reverse
    let st ← phase2.foldlM
      (fun (st : Hnsw K × Nat) l => st.1.insertLayer id vector l st.2)
      (self1, ep1.1)
    if self1.max_layers < level then
      return { st.1 with max_layers := level, entry_point := some id }
    else
      return st.1

/-- `Hnsw::search(query, k)`. -/
def Hnsw.search (self : Hnsw K) (query : List K) (k : Nat) :
    Option (List (Nat × K)) :=
  match self.entry_point with
  | none => some []
  | some ep => do
    let epNode ← hmFind? self.nodes ep
    let curr_dist := dist query epNode.vector
    let descLayers := (List.range' 1 self.max_layers).reverse
    let ep1 ← self.greedyDescent query descLayers ep curr_dist
    let candidates ← self.search_layer query ep1.1 (max self.ef_construction k) 0
    return ((candidates.map (fun c => (c.id, c.distance))).reverse).take k

variable (K)

/-- `Hnsw::new(m, ef_construction)`. -/
def Hnsw.new (m ef_construction : Nat) : Hnsw K :=
  { nodes := []
    entry_point := none
    max_layers := 0
    ef_construction := ef_construction
    m := m
    m_max0 := m * 2 }

variable {K}

/-- An index built from `Hnsw::new(m, efc)` by a sequence of inserts;
each op is `(id, vector, drawn level)`. -/
def Hnsw.build (m efc : Nat) (ops : List (Nat × List K × Nat)) : Option (Hnsw K) :=
  ops.foldlM (fun h op => h.insert op.1 op.2.1 op.2.2) (Hnsw.new K m efc)

end HnswModel

/-! ## Backend node (src/bin/server.rs)

`MyVectorDb::put` glues the WAL and the index.  The WAL here is the list
of logical records successfully appended (value-level vectors, matching
the index's); the outcome of the `wal.append` I/O is an oracle
(`appendRes`), and the drawn insertion level is an oracle as in `insert`.
A `none` result models a panic (which produces no response at all). -/

namespace Server

/-- The gRPC statuses `put` can produce. -/
inductive SStatus where
  | invalidArgument (msg : String)
  | internal (msg : String)
deriving DecidableEq, Repr

/-- A logical WAL record as appended by `put`. -/
structure LogRecord (K : Type) where
  op : Wal.OpType
  vector_id : Nat
  vector : List K

/-- The backend's shared state: the WAL contents and the index. -/
structure BState (K : Type) where
  wal : List (LogRecord K)
  index : Hnsw K

/-- `MyVectorDb::put`: reject an empty vector before touching anything;
append `{Insert, id, vector}` to the WAL; only on WAL success take the
index write lock and insert.  Returns the response and the post state. -/
def put [LinearOrderedCommRing K] (st : BState K) (id : Nat) (vector_data : List K)
    (appendRes : Except String Unit) (level : Nat) :
    Option (Except SStatus Unit × BState K) :=
  if vector_data = [] then
    some (.error (.invalidArgument "Vector cannot be empty"), st)
  else
    match appendRes with
    | .error e => some (.error (.internal ("Failed to write to WAL: " ++ e)), st)
    | .ok _ =>
      let wal' := st.wal ++ [⟨Wal.OpType.Insert, id, vector_data⟩]
      match st.index.insert id vector_data level with
      | some idx' => some (.ok (), ⟨wal', idx'⟩)
      | none => none

end Server


/-! ## Snapshot (save_snapshot / load_snapshot in src/index/hnsw.rs)

`save_snapshot` is `bincode::serialize_into(writer, self)` on the whole
`Hnsw` struct and `load_snapshot` is the matching `deserialize_from`.
Here floats are never interpreted, so an `f32` is its 4-byte bit pattern
and the `f64` field `level_mult` its 8-byte bit pattern (both `Nat`s).
The byte layout follows bincode 1.x's default configuration
(little-endian fixed-width integers, `u64` sequence/map lengths, `u32`
enum tags, 1-byte `Option` tags, `usize` as `u64`) composed with serde's
transparent `Arc`/`RwLock` wrappers and ndarray's array format (a
3-field struct: version byte `1`, the dimension, the data sequence;
deserialization checks the version and that the dimension matches the
data length).  The `HashMap` serializes its entries in iteration order —
here the association-list order — with a `u64` count, and
deserialization rebuilds the map by inserting the decoded entries in
file order, so at the association-list level a round trip is the
identity.  The `Node` struct layout (id, vector, layers) is the one
pinned by its construction site in `insert` (see the operational model).
-/

namespace Snap

/-- A node as serialized: `id: u32`, `vector: Array1<f32>` (elementwise
bit patterns), `layers: Vec<Vec<u32>>`. -/
structure SNode where
  id : Nat
  vector : List Nat
  layers : List (List Nat)
deriving DecidableEq, Repr

/-- The full `Hnsw` struct as serialized, in field declaration order;
`level_mult` is the bit pattern of the `f64`. -/
structure SHnsw where
  nodes : List (Nat × SNode)
  entry_point : Option Nat
  max_layers : Nat
  ef_construction : Nat
  m : Nat
  m_max0 : Nat
  level_mult : Nat
deriving DecidableEq, Repr

/-- ndarray's serde image of an `Array1<f32>`: version byte `1`, the
dimension (`u64`), the data sequence (`u64` length + 4-byte elements). -/
def serArray1 (v : List Nat) : List Nat :=
  1 :: (Wal.leBytes 8 v.length ++ (Wal.leBytes 8 v.length ++ (v.map (Wal.leBytes 4)).flatten))

/-- A `Vec<u32>`: `u64` length + 4-byte elements. -/
def serVecU32 (l : List Nat) : List Nat :=
  Wal.leBytes 8 l.length ++ (l.map (Wal.leBytes 4)).flatten

/-- A `Vec<Vec<u32>>`. -/
def serLayers (ls : List (List Nat)) : List Nat :=
  Wal.leBytes 8 ls.length ++ (ls.map serVecU32).flatten

/-- A `Node` (through the transparent `Arc<RwLock<_>>`). -/
def serNode (n : SNode) : List Nat :=
  Wal.leBytes 4 n.id ++ serArray1 n.vector ++ serLayers n.layers

/-- An `Option<u32>`: 1-byte tag, then the value if present. -/
def serOptU32 : Option Nat → List Nat
  | none => [0]
  | some x => 1 :: Wal.leBytes 4 x

/-- `save_snapshot`: the bincode image of the whole struct, fields in
declaration order; the `HashMap` is written as a `u64` entry count
followed by `(key, value)` pairs in iteration (here list) order. -/
def save (h : SHnsw) : List Nat :=
  Wal.leBytes 8 h.nodes.length
    ++ (h.nodes.map (fun p => Wal.leBytes 4 p.1 ++ serNode p.2)).flatten
    ++ serOptU32 h.entry_point
    ++ Wal.leBytes 8 h.max_layers
    ++ Wal.leBytes 8 h.ef_construction
    ++ Wal.leBytes 8 h.m
    ++ Wal.leBytes 8 h.m_max0
    ++ Wal.leBytes 8 h.level_mult

/-- Read `n` consecutive items with a given reader. -/
def readN {A : Type} (rd : List Nat → Option (A × List Nat)) :
    Nat → List Nat → Option (List A × List Nat)
  | 0, bytes => some ([], bytes)
  | n + 1, bytes => do
    let (x, r) ← rd bytes
    let (xs, r') ← readN rd n r
    return (x :: xs, r')

/-- Decode an `Array1<f32>`: check the format version, read dim and
data, and perform ndarray's `from_shape_vec` check `dim = data.len()`. -/
def readArray1 (bytes : List Nat) : Option (List Nat × List Nat) := do
  let (ver, r1) ← Wal.readLE 1 bytes
  if ver ≠ 1 then none
  else do
    let (dim, r2) ← Wal.readLE 8 r1
    let (len, r3) ← Wal.readLE 8 r2
    let (data, r4) ← readN (Wal.readLE 4) len r3
    if dim = len then some (data, r4) else none

/-- Decode a `Vec<u32>`. -/
def readVecU32 (bytes : List Nat) : Option (List Nat × List Nat) := do
  let (len, r) ← Wal.readLE 8 bytes
  readN (Wal.readLE 4) len r

/-- Decode a `Vec<Vec<u32>>`. -/
def readLayers (bytes : List Nat) : Option (List (List Nat) × List Nat) := do
  let (n, r) ← Wal.readLE 8 bytes
  readN readVecU32 n r

/-- Decode a `Node`. -/
def readNode (bytes : List Nat) : Option (SNode × List Nat) := do
  let (id, r1) ← Wal.readLE 4 bytes
  let (vec, r2) ← readArray1 r1
  let (layers, r3) ← readLayers r2
  return (⟨id, vec, layers⟩, r3)

/-- Decode one `HashMap` entry. -/
def readEntry (bytes : List Nat) : Option ((Nat × SNode) × List Nat) := do
  let (k, r1) ← Wal.readLE 4 bytes
  let (node, r2) ← readNode r1
  return ((k, node), r2)

/-- Decode an `Option<u32>` (bincode rejects tags other than 0 and 1). -/
def readOptU32 (bytes : List Nat) : Option (Option Nat × List Nat) := do
  let (tag, r) ← Wal.readLE 1 bytes
  match tag with
  | 0 => some (none, r)
  | 1 => do
    let (x, r') ← Wal.readLE 4 r
    return (some x, r')
  | _ => none

/-- `load_snapshot`: decode the struct; a short stream or a failed
structural check is an error (`none`). -/
def load (bytes : List Nat) : Option SHnsw := do
  let (n, r0) ← Wal.readLE 8 bytes
  let (entries, r1) ← readN readEntry n r0
  let (ep, r2) ← readOptU32 r1
  let (ml, r3) ← Wal.readLE 8 r2
  let (efc, r4) ← Wal.readLE 8 r3
  let (m, r5) ← Wal.readLE 8 r4
  let (mm0, r6) ← Wal.readLE 8 r5
  let (lm, _) ← Wal.readLE 8 r6
  return ⟨entries, ep, ml, efc, m, mm0, lm⟩

/-- The in-range conditions every real in-memory index satisfies
(`u32` ids and bit patterns, `u64` lengths and `usize` fields). -/
def WfNode (n : SNode) : Prop :=
  n.id < 2 ^ 32 ∧ (∀ b ∈ n.vector, b < 2 ^ 32) ∧ n.vector.length < 2 ^ 64 ∧
    n.layers.length < 2 ^ 64 ∧ ∀ l ∈ n.layers, l.length < 2 ^ 64 ∧ ∀ x ∈ l, x < 2 ^ 32

/-- Well-formedness of the whole struct. -/
def Wf (h : SHnsw) : Prop :=
  h.nodes.length < 2 ^ 64 ∧ (∀ p ∈ h.nodes, p.1 < 2 ^ 32 ∧ WfNode p.2) ∧
    h.entry_point.getD 0 < 2 ^ 32 ∧ h.max_layers < 2 ^ 64 ∧
    h.ef_construction < 2 ^ 64 ∧ h.m < 2 ^ 64 ∧ h.m_max0 < 2 ^ 64 ∧ h.level_mult < 2 ^ 64

/-- A small concrete index used as the round-trip witness. -/
def exSnap : SHnsw :=
  { nodes := [(1, ⟨1, [1065353216, 3212836864], [[2, 3], [4]]⟩), (2, ⟨2, [0], [[]]⟩)]
    entry_point := some 1
    max_layers := 1
    ef_construction := 100
    m := 16
    m_max0 := 32
    level_mult := 4600877379321698714 }

end Snap


/-! ## Verification predicates and concrete instances -/

section HnswInv

variable {K : Type}

/-- `j` names a stored node whose layered adjacency reaches layer `l`. -/
def Hnsw.topOk (self : Hnsw K) (l : Nat) (j : Nat) : Prop :=
  ∃ n, hmFind? self.nodes j = some n ∧ l < n.layers.length

/-- A candidate denotes a stored node, carries its true distance to `q`,
and that node participates in layer `l`. -/
def Hnsw.candOk [LinearOrderedCommRing K] (self : Hnsw K) (q : List K) (l : Nat)
    (c : Cand K) : Prop :=
  ∃ n, hmFind? self.nodes c.id = some n ∧ c.distance = dist q n.vector ∧
    l < n.layers.length

/-- The inductive invariant maintained by `insert` (and established by
`Hnsw::new`): distinct keys; `m ≤ m_max0`; every stored node records its
own key, has at least one layer, respects the per-layer degree bounds,
and refers only to stored nodes that participate in the referring layer;
and the entry point, when set, is a stored node whose top layer is
`max_layers`. -/
def Hnsw.Inv (self : Hnsw K) : Prop :=
  (self.nodes.map (·.1)).Nodup ∧
  self.m ≤ self.m_max0 ∧
  (∀ p ∈ self.nodes, (p.2).id = p.1 ∧ 1 ≤ (p.2).layers.length ∧
    ∀ l lst, (p.2).layers.get? l = some lst →
      lst.length ≤ (if l = 0 then self.m_max0 else self.m) ∧
      ∀ j ∈ lst, self.topOk l j) ∧
  (match self.entry_point with
   | none => self.nodes = []
   | some e => ∃ en, hmFind? self.nodes e = some en ∧
       en.layers.length = self.max_layers + 1)

/-- The loop invariant of `search_layer`: the visited set has no
duplicates and names stored nodes, both heaps hold visited, truthful
candidates, and the result heap has distinct ids, is sorted by
descending distance, and is never empty. -/
def Hnsw.SLInv [LinearOrderedCommRing K] (self : Hnsw K) (q : List K) (layer : Nat)
    (visited : List Nat) (cands nn : List (Cand K)) : Prop :=
  visited.Nodup ∧
  (∀ x ∈ visited, x ∈ self.nodes.map (·.1)) ∧
  (∀ c ∈ cands, c.id ∈ visited ∧ self.candOk q layer c) ∧
  (∀ c ∈ nn, c.id ∈ visited ∧ self.candOk q layer c) ∧
  (nn.map (·.id)).Nodup ∧
  nn.Pairwise (fun a b => b.distance ≤ a.distance) ∧
  1 ≤ nn.length

/-- The state invariant of the greedy walk: `ep` is a stored node and
`d` is its true distance to the query. -/
def Hnsw.EpOk [LinearOrderedCommRing K] (self : Hnsw K) (q : List K) (ep : Nat)
    (d : K) : Prop :=
  ∃ n, hmFind? self.nodes ep = some n ∧ d = dist q n.vector

/-- The termination measure of the greedy `while changed` loop: the
number of stored nodes strictly closer to the query than the current
best distance.  Every `changed` pass strictly decreases it. -/
def Hnsw.gmeasure [LinearOrderedCommRing K] (self : Hnsw K) (q : List K) (d : K) :
    Nat :=
  (self.nodes.filter (fun p => decide (dist q (p.2).vector < d))).length

/-- How a back-link during `insert(id, ·)` rewrites a neighbor's
layer-`l` adjacency list (`nvec` is the neighbor's own vector): the new
id is appended, and if the list then exceeds `m_max` it is replaced by
the result of the pruning block. -/
def Hnsw.backlinked [LinearOrderedCommRing K] (I : Hnsw K) (id : Nat) (nvec : List K)
    (l : Nat) (old new : List Nat) : Prop :=
  ((old ++ [id]).length ≤ (if l = 0 then I.m_max0 else I.m) ∧ new = old ++ [id]) ∨
  ((if l = 0 then I.m_max0 else I.m) < (old ++ [id]).length ∧
    pruneList I nvec (old ++ [id]) (if l = 0 then I.m_max0 else I.m) = some new)

end HnswInv

/-- The one-record index produced by inserting `(id, v)` with drawn
level `lvl` into a fresh `Hnsw::new(m, efc)` (the early-return branch of
`insert` on an empty index). -/
def oneRec {K : Type} (m efc id lvl : Nat) (v : List K) : Hnsw K :=
  { nodes := [(id, ⟨id, v, List.replicate (lvl + 1) []⟩)]
    entry_point := some id
    max_layers := lvl
    ef_construction := efc
    m := m
    m_max0 := m * 2 }

/-- A concrete one-node index over `ℤ` satisfying the insert invariant
(used to exercise the frame theorem at a concrete input). -/
def exOne : Hnsw Int :=
  { nodes := [(5, ⟨5, [0], [[]]⟩)]
    entry_point := some 5
    max_layers := 0
    ef_construction := 1
    m := 1
    m_max0 := 2 }

/-- A 1-D build (`M = 2`, `ef_construction = 1`, all levels 0) in which
node 2's only in-edge is pruned away: after the build, node 1's layer-0
list is `[3, 4, 5, 6]` and node 2 is unreachable from the entry point. -/
def exMissOps : List (Nat × List Int × Nat) :=
  [(1, [0], 0), (2, [20], 0), (3, [2], 0), (4, [-2], 0), (5, [1], 0), (6, [-1], 0)]

/-! ## Shared byte-level lemmas -/

namespace Wal

theorem leBytes_length (k x : Nat) : (leBytes k x).length = k := by
  induction k generalizing x with
  | zero => rfl
  | succ k ih => simp [leBytes, ih]

theorem leVal_cons (y : Nat) (l : List Nat) : leVal (y :: l) = y % 256 + 256 * leVal l := rfl

theorem leVal_leBytes (k x : Nat) : leVal (leBytes k x) = x % 256 ^ k := by
  induction k generalizing x with
  | zero => simp [leBytes, leVal, Nat.mod_one]
  | succ k ih =>
    rw [leBytes, leVal_cons, ih, pow_succ' 256 k, Nat.mod_mul]
    have h1 : x % 256 % 256 = x % 256 := Nat.mod_mod_of_dvd x dvd_rfl
    omega

theorem leVal_leBytes_of_lt {k x : Nat} (h : x < 256 ^ k) : leVal (leBytes k x) = x := by
  rw [leVal_leBytes, Nat.mod_eq_of_lt h]

theorem readLE_append (k x : Nat) (r : List Nat) :
    readLE k (leBytes k x ++ r) = some (x % 256 ^ k, r) := by
  have hlen : (leBytes k x).length = k := leBytes_length k x
  rw [readLE, if_pos (by simp [hlen]), List.take_left' hlen, List.drop_left' hlen,
    leVal_leBytes]

theorem readLE_append_of_lt {k x : Nat} (h : x < 256 ^ k) (r : List Nat) :
    readLE k (leBytes k x ++ r) = some (x, r) := by
  rw [readLE_append, Nat.mod_eq_of_lt h]

theorem readLE_one (t : Nat) (r : List Nat) : readLE 1 (t :: r) = some (t % 256, r) := by
  simp [readLE, leVal]

end Wal

namespace Snap

theorem readN_flatten {A B : Type} (rd : List Nat → Option (B × List Nat))
    (enc : A → List Nat) (f : A → B) (as : List A)
    (h : ∀ a ∈ as, ∀ s : List Nat, rd (enc a ++ s) = some (f a, s)) (r : List Nat) :
    readN rd as.length ((as.map enc).flatten ++ r) = some (as.map f, r) := by
  induction as with
  | nil => simp [readN]
  | cons a as ih =>
    simp only [List.map_cons, List.flatten_cons, List.length_cons, List.append_assoc]
    rw [readN, h a (List.mem_cons_self a as)]
    simp only [Option.bind_eq_bind, Option.some_bind]
    rw [ih (fun a ha s => h a (List.mem_cons_of_mem _ ha) s)]
    rfl

theorem readN_leLE4 (v : List Nat) (hv : ∀ b ∈ v, b < 2 ^ 32) (r : List Nat) :
    readN (Wal.readLE 4) v.length ((v.map (Wal.leBytes 4)).flatten ++ r) = some (v, r) := by
  have := readN_flatten (Wal.readLE 4) (Wal.leBytes 4) id v
    (fun a ha s => Wal.readLE_append_of_lt (by simpa using hv a ha) s) r
  simpa using this

theorem readArray1_ser (v : List Nat) (hv : ∀ b ∈ v, b < 2 ^ 32)
    (hlen : v.length < 2 ^ 64) (r : List Nat) :
    readArray1 (serArray1 v ++ r) = some (v, r) := by
  rw [serArray1, readArray1, List.cons_append, Wal.readLE_one]
  simp only [Option.bind_eq_bind, Option.some_bind, Nat.one_mod]
  rw [if_neg (by norm_num), List.append_assoc,
    Wal.readLE_append_of_lt (by simpa using hlen)]
  simp only [Option.some_bind]
  rw [List.append_assoc, Wal.readLE_append_of_lt (by simpa using hlen)]
  simp only [Option.some_bind]
  rw [readN_leLE4 v hv]
  simp

theorem readVecU32_ser (l : List Nat) (hl : ∀ b ∈ l, b < 2 ^ 32)
    (hlen : l.length < 2 ^ 64) (r : List Nat) :
    readVecU32 (serVecU32 l ++ r) = some (l, r) := by
  rw [serVecU32, readVecU32, List.append_assoc,
    Wal.readLE_append_of_lt (by simpa using hlen)]
  simp only [Option.bind_eq_bind, Option.some_bind]
  rw [readN_leLE4 l hl]

theorem readLayers_ser (ls : List (List Nat))
    (h : ∀ l ∈ ls, l.length < 2 ^ 64 ∧ ∀ x ∈ l, x < 2 ^ 32)
    (hlen : ls.length < 2 ^ 64) (r : List Nat) :
    readLayers (serLayers ls ++ r) = some (ls, r) := by
  rw [serLayers, readLayers, List.append_assoc,
    Wal.readLE_append_of_lt (by simpa using hlen)]
  simp only [Option.bind_eq_bind, Option.some_bind]
  have := readN_flatten readVecU32 serVecU32 id ls
    (fun a ha s => readVecU32_ser a (h a ha).2 (h a ha).1 s) r
  simpa using this

theorem readNode_ser (n : SNode) (hn : WfNode n) (r : List Nat) :
    readNode (serNode n ++ r) = some (n, r) := by
  obtain ⟨hid, hvec, hvlen, hllen, hlay⟩ := hn
  rw [serNode, readNode]
  simp only [List.append_assoc]
  rw [Wal.readLE_append_of_lt (by simpa using hid)]
  simp only [Option.bind_eq_bind, Option.some_bind]
  rw [readArray1_ser n.vector hvec hvlen]
  simp only [Option.some_bind]
  rw [readLayers_ser n.layers hlay hllen]
  simp

theorem readEntry_ser (p : Nat × SNode) (hk : p.1 < 2 ^ 32) (hn : WfNode p.2)
    (r : List Nat) :
    readEntry ((Wal.leBytes 4 p.1 ++ serNode p.2) ++ r) = some (p, r) := by
  rw [readEntry, List.append_assoc, Wal.readLE_append_of_lt (by simpa using hk)]
  simp only [Option.bind_eq_bind, Option.some_bind]
  rw [readNode_ser p.2 hn]
  simp

theorem readOptU32_ser (o : Option Nat) (ho : ∀ e, o = some e → e < 2 ^ 32)
    (r : List Nat) : readOptU32 (serOptU32 o ++ r) = some (o, r) := by
  cases o with
  | none =>
    rw [serOptU32, readOptU32, List.cons_append, Wal.readLE_one]
    simp [Option.bind_eq_bind, Option.some_bind]
  | some e =>
    rw [serOptU32, readOptU32, List.cons_append, Wal.readLE_one]
    simp only [Option.bind_eq_bind, Option.some_bind, Nat.one_mod]
    rw [Wal.readLE_append_of_lt (by simpa using ho e rfl)]
    rfl

theorem readLE_exact {k x : Nat} (h : x < 256 ^ k) :
    Wal.readLE k (Wal.leBytes k x) = some (x, []) := by
  have := Wal.readLE_append_of_lt h []
  simpa using this

theorem readEntry_assoc (p : Nat × SNode) (hk : p.1 < 2 ^ 32) (hn : WfNode p.2)
    (r : List Nat) :
    readEntry (Wal.leBytes 4 p.1 ++ (serNode p.2 ++ r)) = some (p, r) := by
  have := readEntry_ser p hk hn r
  rwa [List.append_assoc] at this

theorem readN_entries (ns : List (Nat × SNode))
    (hent : ∀ p ∈ ns, p.1 < 2 ^ 32 ∧ WfNode p.2) (r : List Nat) :
    readN readEntry ns.length
      ((ns.map (fun p => Wal.leBytes 4 p.1 ++ serNode p.2)).flatten ++ r)
      = some (ns, r) := by
  induction ns with
  | nil => simp [readN]
  | cons p ps ih =>
    simp only [List.map_cons, List.flatten_cons, List.length_cons, List.append_assoc]
    rw [readN, readEntry_assoc p (hent p (List.mem_cons_self p ps)).1
      (hent p (List.mem_cons_self p ps)).2]
    simp only [Option.bind_eq_bind, Option.some_bind]
    rw [ih (fun q hq => hent q (List.mem_cons_of_mem _ hq))]
    rfl

/-- C1.  Snapshot round-trip: for every (well-formed) index, saving a
snapshot and loading it back yields a structurally identical index —
the same association of node ids to nodes (hence the same stored vector
and the same per-layer adjacency lists per node), the same
`entry_point`, and the same `max_layers`, `ef_construction`, `m`,
`m_max0` and `level_mult`. -/
theorem snapshot_roundtrip (h : SHnsw) (hw : Wf h) : load (save h) = some h := by
  obtain ⟨hn, hent, hep, hml, hefc, hm, hmm, hlm⟩ := hw
  rw [save, load]
  simp only [List.append_assoc]
  rw [Wal.readLE_append_of_lt (by simpa using hn)]
  simp only [Option.bind_eq_bind, Option.some_bind]
  rw [readN_entries h.nodes hent]
  simp only [Option.some_bind]
  rw [readOptU32_ser h.entry_point (fun e he => by rw [he] at hep; simpa using hep)]
  simp only [Option.some_bind]
  rw [Wal.readLE_append_of_lt (by simpa using hml)]
  simp only [Option.some_bind]
  rw [Wal.readLE_append_of_lt (by simpa using hefc)]
  simp only [Option.some_bind]
  rw [Wal.readLE_append_of_lt (by simpa using hm)]
  simp only [Option.some_bind]
  rw [Wal.readLE_append_of_lt (by simpa using hmm)]
  simp only [Option.some_bind]
  rw [readLE_exact (by simpa using hlm)]
  rfl

/-- Witness for C1 at the concrete index `exSnap`. -/
theorem snapshot_roundtrip_witness :
    Wf exSnap ∧ load (save exSnap) = some exSnap :=
  ⟨by unfold Wf WfNode; decide, snapshot_roundtrip exSnap (by unfold Wf WfNode; decide)⟩

end Snap

/-! ## C2: WAL tail corruption -/

namespace Wal

theorem crcByte_lt (c b : Nat) (hc : c < 2 ^ 32) : crcByte c b < 2 ^ 32 := by
  unfold crcByte
  have h0 : c ^^^ b % 256 < 2 ^ 32 :=
    Nat.xor_lt_two_pow hc (lt_of_lt_of_le (Nat.mod_lt _ (by norm_num)) (by norm_num))
  have key : ∀ (l : List Nat) (c : Nat), c < 2 ^ 32 →
      l.foldl (fun c _ => if c % 2 = 1 then (c / 2) ^^^ 0xEDB88320 else c / 2) c < 2 ^ 32 := by
    intro l
    induction l with
    | nil => intro c hc; simpa using hc
    | cons x xs ih =>
      intro c hc
      apply ih
      by_cases h : c % 2 = 1
      · simp only [h, if_pos]
        exact Nat.xor_lt_two_pow (by omega) (by norm_num)
      · simp only [if_neg h]
        omega
  exact key _ _ h0

theorem crc32_lt (data : List Nat) : crc32 data < 2 ^ 32 := by
  unfold crc32
  have key : ∀ (l : List Nat) (c : Nat), c < 2 ^ 32 → l.foldl crcByte c < 2 ^ 32 := by
    intro l
    induction l with
    | nil => intro c hc; simpa using hc
    | cons x xs ih => intro c hc; exact ih _ (crcByte_lt c x hc)
  exact Nat.xor_lt_two_pow (key data 0xFFFFFFFF (by norm_num)) (by norm_num)

theorem readVector_ser (v : List Nat) (hv : ∀ b ∈ v, b < 2 ^ 32) (r : List Nat) :
    readVector v.length ((v.map (leBytes 4)).flatten ++ r) = some (v, r) := by
  induction v with
  | nil => simp [readVector]
  | cons x xs ih =>
    simp only [List.map_cons, List.flatten_cons, List.length_cons, List.append_assoc]
    rw [readVector, readLE_append_of_lt (by simpa using hv x (List.mem_cons_self x xs))]
    simp only [Option.bind_eq_bind, Option.some_bind]
    rw [ih (fun b hb => hv b (List.mem_cons_of_mem _ hb))]
    rfl

theorem tagOf_lt (op : OpType) : tagOf op < 256 ^ 4 := by
  cases op <;> simp [tagOf]

theorem deserialize_serialize (e : WalEntry) (he : WfEntry e) :
    deserializeEntry (serializeEntry e) = some e := by
  obtain ⟨op, vid, vec⟩ := e
  obtain ⟨hid, hvec, hlen⟩ := he
  simp only at hid hvec hlen
  rw [serializeEntry, deserializeEntry]
  simp only [List.append_assoc]
  rw [readLE_append_of_lt (tagOf_lt op)]
  simp only [Option.bind_eq_bind, Option.some_bind]
  have hvv : readVector vec.length ((vec.map (leBytes 4)).flatten) = some (vec, []) := by
    have := readVector_ser vec hvec []
    simpa using this
  have hlen64 : vec.length < 256 ^ 8 := lt_of_lt_of_le hlen (by norm_num)
  cases op with
  | Insert =>
    simp only [tagOf, Option.some_bind]
    rw [readLE_append_of_lt (by simpa using hid)]
    simp only [Option.some_bind]
    rw [readLE_append_of_lt hlen64]
    simp only [Option.some_bind]
    rw [hvv]
    rfl
  | Delete =>
    simp only [tagOf, Option.some_bind]
    rw [readLE_append_of_lt (by simpa using hid)]
    simp only [Option.some_bind]
    rw [readLE_append_of_lt hlen64]
    simp only [Option.some_bind]
    rw [hvv]
    rfl

theorem flatten_le4_length (v : List Nat) :
    ((v.map (leBytes 4)).flatten).length = 4 * v.length := by
  induction v with
  | nil => simp
  | cons x xs ih => simp [leBytes_length, ih]; ring

theorem serializeEntry_length (e : WalEntry) :
    (serializeEntry e).length = 16 + 4 * e.vector.length := by
  simp only [serializeEntry, List.length_append, leBytes_length, flatten_le4_length]

theorem readStep_record (e : WalEntry) (he : WfEntry e) (b : List Nat) :
    readStep (encodeRecord e ++ b) = .record e b := by
  have hdl : (serializeEntry e).length = 16 + 4 * e.vector.length := serializeEntry_length e
  have hlt : (serializeEntry e).length < 256 ^ 8 := by
    have := he.2.2
    calc (serializeEntry e).length = 16 + 4 * e.vector.length := hdl
    _ < 16 + 4 * 2 ^ 61 := by omega
    _ ≤ 256 ^ 8 := by norm_num
  have hsplit : encodeRecord e ++ b
      = leBytes 4 (crc32 (serializeEntry e))
        ++ (leBytes 8 (serializeEntry e).length ++ (serializeEntry e ++ b)) := by
    simp [encodeRecord, List.append_assoc]
  rw [hsplit, readStep]
  rw [if_neg (by simp [leBytes_length])]
  rw [List.take_left' (leBytes_length 4 _), List.drop_left' (leBytes_length 4 _),
    leVal_leBytes_of_lt (by simpa [show (256:Nat) ^ 4 = 2 ^ 32 by norm_num] using crc32_lt _)]
  rw [if_neg (by simp [leBytes_length])]
  rw [List.take_left' (leBytes_length 8 _), List.drop_left' (leBytes_length 8 _),
    leVal_leBytes_of_lt hlt]
  rw [if_neg (by simp)]
  rw [List.take_left' rfl, List.drop_left' rfl]
  rw [if_neg (by simp), deserialize_serialize e he]

theorem readStep_record_length {bytes rest : List Nat} {e : WalEntry}
    (h : readStep bytes = .record e rest) : rest.length + 12 ≤ bytes.length := by
  rw [readStep] at h
  split at h
  · exact absurd h (by simp)
  · dsimp only at h
    split at h
    · exact absurd h (by simp)
    · split at h
      · exact absurd h (by simp)
      · split at h
        · exact absurd h (by simp)
        · split at h
          · exact absurd h (by simp)
          · rename_i h1 h2 h3 _ _
            injection h with h4 h5
            subst h5
            simp only [List.length_drop] at *
            omega

theorem readAllFuel_congr (f₁ f₂ : Nat) (bytes : List Nat)
    (h₁ : bytes.length < f₁) (h₂ : bytes.length < f₂) :
    readAllFuel f₁ bytes = readAllFuel f₂ bytes := by
  induction f₁ generalizing f₂ bytes with
  | zero => omega
  | succ f₁ ih =>
    cases f₂ with
    | zero => omega
    | succ f₂ =>
      rw [readAllFuel, readAllFuel]
      cases hs : readStep bytes with
      | eof => rfl
      | fail err => rfl
      | record e rest =>
        have hr := readStep_record_length hs
        dsimp only
        rw [ih f₂ rest (by omega) (by omega)]

theorem read_all_cons (e : WalEntry) (he : WfEntry e) (b : List Nat) :
    read_all (encodeRecord e ++ b)
      = match read_all b with
        | .ok es => .ok (e :: es)
        | .error err => .error err := by
  rw [read_all, readAllFuel, readStep_record e he b]
  dsimp only
  rw [readAllFuel_congr ((encodeRecord e ++ b).length) (b.length + 1) b
    (by simp only [List.length_append, encodeRecord, leBytes_length]; omega) (by omega)]
  rfl

/-- C2 counterexample.  A WAL consisting of zero well-formed records
followed by the non-empty trailing byte sequence `[255]` (which does not
form a complete valid record) makes `read_all` return `Ok([])` — the
well-formed prefix — rather than an error: `read_exact` on the 4-byte
CRC header reports `UnexpectedEof` for a 1–3 byte fragment exactly as
for a clean end of file, and the loop `break`s. -/
theorem read_all_short_tail_counterexample :
    read_all [255] = .ok [] ∧ ([255] : List Nat) ≠ [] :=
  ⟨rfl, by decide⟩

/-- C2 (amended).  On a WAL of well-formed records followed by a
corrupt tail, `read_all` is an error for every mid-stream failure the
loop can see — a short read of the 8-byte length field, a short read of
the payload, a CRC mismatch over the payload, or a payload
deserialization failure (these are exactly the `Step.fail` outcomes of
`readStep`) — but a trailing fragment shorter than the 4-byte CRC
header is indistinguishable from a clean end of file and yields the
well-formed prefix silently. -/
theorem read_all_tail_corruption (rs : List WalEntry) (tail : List Nat)
    (hwf : ∀ e ∈ rs, WfEntry e) :
    read_all (encodeAll rs) = .ok rs ∧
    (tail ≠ [] → tail.length < 4 → read_all (encodeAll rs ++ tail) = .ok rs) ∧
    (∀ err, readStep tail = .fail err → read_all (encodeAll rs ++ tail) = .error err) := by
  induction rs with
  | nil =>
    refine ⟨rfl, ?_, ?_⟩
    · intro _ hlt
      simp only [encodeAll, List.map_nil, List.flatten_nil, List.nil_append]
      rw [read_all, readAllFuel, show readStep tail = .eof from by rw [readStep, if_pos hlt]]
    · intro err herr
      simp only [encodeAll, List.map_nil, List.flatten_nil, List.nil_append]
      rw [read_all, readAllFuel, herr]
  | cons e es ih =>
    have hewf := hwf e (List.mem_cons_self e es)
    have ih' := ih (fun x hx => hwf x (List.mem_cons_of_mem _ hx))
    have hcat : encodeAll (e :: es) = encodeRecord e ++ encodeAll es := by
      simp [encodeAll]
    refine ⟨?_, ?_, ?_⟩
    · rw [hcat, read_all_cons e hewf, ih'.1]
    · intro hne hlt
      rw [hcat, List.append_assoc, read_all_cons e hewf, ih'.2.1 hne hlt]
    · intro err herr
      rw [hcat, List.append_assoc, read_all_cons e hewf, ih'.2.2 err herr]

/-- Witness for C2 (amended): behind one valid record, a 4-byte tail
(whose length-field read hits end of file) is an error, and a 1-byte
tail is silently dropped. -/
theorem read_all_tail_corruption_witness :
    read_all (encodeAll [⟨.Insert, 7, [5]⟩] ++ [0, 0, 0, 0]) = .error .unexpectedEof ∧
    read_all (encodeAll [⟨.Insert, 7, [5]⟩] ++ [9]) = .ok [⟨.Insert, 7, [5]⟩] := by
  have hwf : ∀ e ∈ [(⟨.Insert, 7, [5]⟩ : WalEntry)], WfEntry e := by
    intro x hx
    simp only [List.mem_singleton] at hx
    subst hx
    exact ⟨by norm_num, by decide, by norm_num⟩
  constructor
  · exact (read_all_tail_corruption [⟨.Insert, 7, [5]⟩] [0, 0, 0, 0] hwf).2.2
      .unexpectedEof rfl
  · exact (read_all_tail_corruption [⟨.Insert, 7, [5]⟩] [9] hwf).2.1
      (by decide) (by decide)

end Wal


/-! ## C9: router merge -/

namespace Router

theorem fcmp_refl (d : Option ℚ) : fcmp d d ≠ .gt := by
  cases d with
  | none => simp [fcmp]
  | some a => simp [fcmp, compare_gt_iff_gt]

theorem leD_refl (a : SearchResult) : leD a a := fcmp_refl a.distance

theorem fcmp_gt_iff (a b : Option ℚ) :
    fcmp a b = .gt ↔ ∃ x y, a = some x ∧ b = some y ∧ y < x := by
  cases a with
  | none => simp [fcmp]
  | some x =>
    cases b with
    | none => simp [fcmp]
    | some y => simp [fcmp, compare_gt_iff_gt]

theorem leD_asymm {a b : SearchResult} (h : fcmp a.distance b.distance = .gt) : leD b a := by
  obtain ⟨x, y, hx, hy, hlt⟩ := (fcmp_gt_iff _ _).mp h
  unfold leD
  rw [hy, hx]
  simp [fcmp, compare_gt_iff_gt]
  exact le_of_lt hlt

theorem leD_shift {s r w : SearchResult} (h1 : fcmp s.distance r.distance = .gt)
    (h2 : leD s w) : leD r w := by
  obtain ⟨x, y, hx, hy, hlt⟩ := (fcmp_gt_iff _ _).mp h1
  unfold leD
  cases hw : w.distance with
  | none => rw [hy]; simp [fcmp]
  | some z =>
    rw [hy]
    unfold leD at h2
    rw [hx, hw] at h2
    simp only [fcmp, ne_eq, compare_gt_iff_gt, not_lt] at h2 ⊢
    exact le_trans (le_of_lt hlt) h2

theorem mem_sortInsert (r x : SearchResult) (l : List SearchResult) :
    x ∈ sortInsert r l ↔ x = r ∨ x ∈ l := by
  induction l with
  | nil => simp [sortInsert]
  | cons s rest ih =>
    rw [sortInsert]
    split
    · simp only [List.mem_cons, ih]
      tauto
    · simp only [List.mem_cons]
      try tauto

theorem sortInsert_perm (r : SearchResult) (l : List SearchResult) :
    List.Perm (sortInsert r l) (r :: l) := by
  induction l with
  | nil => exact List.Perm.refl _
  | cons s rest ih =>
    rw [sortInsert]
    split
    · exact (ih.cons s).trans (List.Perm.swap r s rest)
    · exact List.Perm.refl _

theorem sortInsert_pairwise (r : SearchResult) (l : List SearchResult)
    (h : l.Pairwise leD) : (sortInsert r l).Pairwise leD := by
  induction l with
  | nil => simp [sortInsert, List.Pairwise]
  | cons s rest ih =>
    rw [sortInsert]
    rw [List.pairwise_cons] at h
    split
    · rename_i hc
      rw [List.pairwise_cons]
      refine ⟨?_, ih h.2⟩
      intro x hx
      rcases (mem_sortInsert r x rest).mp hx with hx | hx
      · subst hx; exact hc
      · exact h.1 x hx
    · rename_i hc
      rw [not_not] at hc
      rw [List.pairwise_cons]
      refine ⟨?_, List.pairwise_cons.mpr h⟩
      intro x hx
      rcases List.mem_cons.mp hx with hx | hx
      · subst hx; exact leD_asymm hc
      · exact leD_shift hc (h.1 x hx)

theorem foldl_sortInsert_perm (l acc : List SearchResult) :
    List.Perm (l.foldl (fun acc r => sortInsert r acc) acc) (acc ++ l) := by
  induction l generalizing acc with
  | nil => simp
  | cons r rest ih =>
    rw [List.foldl_cons]
    refine (ih (sortInsert r acc)).trans ?_
    refine (List.Perm.append_right rest (sortInsert_perm r acc)).trans ?_
    exact List.perm_middle.symm

theorem sortByDistance_perm (l : List SearchResult) : List.Perm (sortByDistance l) l := by
  have := foldl_sortInsert_perm l []
  simpa [sortByDistance] using this

theorem foldl_sortInsert_pairwise (l acc : List SearchResult)
    (h : acc.Pairwise leD) :
    (l.foldl (fun acc r => sortInsert r acc) acc).Pairwise leD := by
  induction l generalizing acc with
  | nil => simpa
  | cons r rest ih => exact ih _ (sortInsert_pairwise r acc h)

theorem sortByDistance_pairwise (l : List SearchResult) :
    (sortByDistance l).Pairwise leD :=
  foldl_sortInsert_pairwise l [] (by simp)

theorem mem_eq_of_nodup_map {res : List SearchResult}
    (h : (res.map (·.id)).Nodup) {a b : SearchResult}
    (ha : a ∈ res) (hb : b ∈ res) (hid : a.id = b.id) : a = b := by
  induction res with
  | nil => cases ha
  | cons x rest ih =>
    rw [List.map_cons, List.nodup_cons] at h
    rcases List.mem_cons.mp ha with ha' | ha' <;> rcases List.mem_cons.mp hb with hb' | hb'
    · rw [ha', hb']
    · subst ha'
      exact absurd (hid ▸ List.mem_map_of_mem (·.id) hb') h.1
    · subst hb'
      exact absurd (hid ▸ List.mem_map_of_mem (·.id) ha') h.1
    · exact ih h.2 ha' hb'

theorem dedupTrunc_cons_mem {k : Nat} {r : SearchResult} {rest : List SearchResult}
    {seen : List Nat} {acc : List SearchResult} (h : r.id ∈ seen) :
    dedupTrunc k (r :: rest) seen acc
      = if k ≤ acc.length then acc else dedupTrunc k rest seen acc := by
  simp [dedupTrunc, h]

theorem dedupTrunc_cons_not_mem {k : Nat} {r : SearchResult} {rest : List SearchResult}
    {seen : List Nat} {acc : List SearchResult} (h : ¬ r.id ∈ seen) :
    dedupTrunc k (r :: rest) seen acc
      = if k ≤ acc.length + 1 then acc ++ [r]
        else dedupTrunc k rest (r.id :: seen) (acc ++ [r]) := by
  simp [dedupTrunc, h]

theorem dedupTrunc_spec (k : Nat) (rest : List SearchResult) :
    ∀ (seen : List Nat) (acc : List SearchResult),
    acc.length < k →
    (∀ i, i ∈ seen ↔ ∃ a ∈ acc, a.id = i) →
    (acc.map (·.id)).Nodup →
    (acc ++ rest).Pairwise leD →
    (∃ ext, dedupTrunc k rest seen acc = acc ++ ext) ∧
    (dedupTrunc k rest seen acc).Sublist (acc ++ rest) ∧
    ((dedupTrunc k rest seen acc).map (·.id)).Nodup ∧
    (dedupTrunc k rest seen acc).length = min k (acc.length + newIdCount seen rest) ∧
    (∀ a ∈ dedupTrunc k rest seen acc, ∀ s ∈ acc ++ rest, s.id = a.id → leD a s) := by
  induction rest with
  | nil =>
    intro seen acc hlen hseen hnodup hpw
    rw [dedupTrunc]
    refine ⟨⟨[], by simp⟩, by simp, hnodup, ?_, ?_⟩
    · simp [newIdCount, Nat.min_eq_right (le_of_lt hlen)]
    · intro a ha s hs hid
      simp only [List.append_nil] at hs
      rw [mem_eq_of_nodup_map hnodup ha hs hid.symm]
      exact leD_refl s
  | cons r rest ih =>
    intro seen acc hlen hseen hnodup hpw
    have hpw3 := List.pairwise_append.mp hpw
    by_cases hmem : r.id ∈ seen
    · rw [dedupTrunc_cons_mem hmem, if_neg (by omega)]
      have hsubl : (acc ++ rest).Sublist (acc ++ r :: rest) :=
        List.Sublist.append_left (List.sublist_cons_self r rest) acc
      obtain ⟨hext, hsub, hnd, hlenr, hmin⟩ :=
        ih seen acc hlen hseen hnodup (hpw.sublist hsubl)
      refine ⟨hext, hsub.trans hsubl, hnd, ?_, ?_⟩
      · rw [hlenr, newIdCount, if_pos hmem]
      · intro a ha s hs hid
        rcases List.mem_append.mp hs with hs' | hs'
        · exact hmin a ha s (List.mem_append.mpr (Or.inl hs')) hid
        · rcases List.mem_cons.mp hs' with hs'' | hs''
          · subst hs''
            obtain ⟨b, hb, hbid⟩ := (hseen s.id).mp hmem
            obtain ⟨ext, hext⟩ := hext
            have hbres : b ∈ dedupTrunc k (s :: rest) seen acc := by
              rw [dedupTrunc_cons_mem hmem, if_neg (by omega), hext]
              exact List.mem_append.mpr (Or.inl hb)
            have hares : a ∈ dedupTrunc k (s :: rest) seen acc := by
              rw [dedupTrunc_cons_mem hmem, if_neg (by omega)]
              exact ha
            have hab : a = b := by
              have hnd' : ((dedupTrunc k (s :: rest) seen acc).map (·.id)).Nodup := by
                rw [dedupTrunc_cons_mem hmem, if_neg (by omega)]
                exact hnd
              exact mem_eq_of_nodup_map hnd' hares hbres (by rw [hbid, hid])
            subst hab
            exact hpw3.2.2 a hb s (List.mem_cons_self s rest)
          · exact hmin a ha s (List.mem_append.mpr (Or.inr hs'')) hid
    · have hfresh : ∀ b ∈ acc, b.id ≠ r.id := by
        intro b hb hbid
        exact hmem ((hseen r.id).mpr ⟨b, hb, hbid⟩)
      have hnodup' : ((acc ++ [r]).map (·.id)).Nodup := by
        rw [List.map_append, List.nodup_append]
        refine ⟨hnodup, by simp, ?_⟩
        intro i hi
        simp only [List.map_cons, List.map_nil, List.mem_singleton]
        obtain ⟨b, hb, hbid⟩ := List.mem_map.mp hi
        intro hir
        exact hfresh b hb (by rw [hbid, hir])
      rw [dedupTrunc_cons_not_mem hmem]
      by_cases hbreak : k ≤ acc.length + 1
      · rw [if_pos hbreak]
        have hkeq : k = acc.length + 1 := by omega
        refine ⟨⟨[r], rfl⟩, ?_, hnodup', ?_, ?_⟩
        · exact List.Sublist.append_left
            (List.cons_sublist_cons.mpr (List.nil_sublist rest)) acc
        · rw [newIdCount, if_neg hmem]
          simp only [List.length_append, List.length_singleton]
          omega
        · intro a ha s hs hid
          rcases List.mem_append.mp ha with ha' | ha'
          · rcases List.mem_append.mp hs with hs' | hs'
            · rw [mem_eq_of_nodup_map hnodup ha' hs' hid.symm]
              exact leD_refl s
            · exact hpw3.2.2 a ha' s hs'
          · rcases List.mem_cons.mp ha' with ha'' | ha''
            swap
            · cases ha''
            · subst ha''
              rcases List.mem_append.mp hs with hs' | hs'
              · exact absurd hid (hfresh s hs')
              · rcases List.mem_cons.mp hs' with hs'' | hs''
                · subst hs''
                  exact leD_refl s
                · exact (List.pairwise_cons.mp hpw3.2.1).1 s hs''
      · rw [if_neg hbreak]
        have hseen' : ∀ i, i ∈ r.id :: seen ↔ ∃ a ∈ acc ++ [r], a.id = i := by
          intro i
          rw [List.mem_cons, hseen]
          constructor
          · rintro (hi | ⟨a, ha, hai⟩)
            · exact ⟨r, by simp, hi.symm⟩
            · exact ⟨a, by simp [ha], hai⟩
          · rintro ⟨a, ha, hai⟩
            rcases List.mem_append.mp ha with ha' | ha'
            · exact Or.inr ⟨a, ha', hai⟩
            · have har : a = r := by simpa using ha'
              subst har
              exact Or.inl hai.symm
        have hpw' : ((acc ++ [r]) ++ rest).Pairwise leD := by
          rw [List.append_assoc, List.singleton_append]
          exact hpw
        obtain ⟨hext, hsub, hnd, hlenr, hmin⟩ :=
          ih (r.id :: seen) (acc ++ [r])
            (by simp only [List.length_append, List.length_singleton]; omega)
            hseen' hnodup' hpw'
        have hlist : (acc ++ [r]) ++ rest = acc ++ r :: rest := by
          rw [List.append_assoc, List.singleton_append]
        refine ⟨?_, ?_, hnd, ?_, ?_⟩
        · obtain ⟨ext, hext⟩ := hext
          exact ⟨[r] ++ ext, by rw [hext, List.append_assoc]⟩
        · rw [← hlist]
          exact hsub
        · rw [hlenr, newIdCount, if_neg hmem]
          simp only [List.length_append, List.length_singleton]
          congr 1
          omega
        · intro a ha s hs hid
          exact hmin a ha s (by rw [hlist]; exact hs) hid

theorem newIdCount_eq (l : List SearchResult) : ∀ seen : List Nat,
    newIdCount seen l
      = ((l.map (·.id)).filter (fun i => decide (i ∉ seen))).toFinset.card := by
  induction l with
  | nil => intro seen; simp [newIdCount]
  | cons r rest ih =>
    intro seen
    by_cases hmem : r.id ∈ seen
    · rw [newIdCount, if_pos hmem, ih seen, List.map_cons, List.filter_cons]
      simp [hmem]
    · rw [newIdCount, if_neg hmem, ih (r.id :: seen), List.map_cons, List.filter_cons]
      rw [if_pos (by simp [hmem]), List.toFinset_cons]
      have hrB : r.id ∉ ((rest.map (·.id)).filter (fun i => decide (i ∉ r.id :: seen))).toFinset := by
        simp [List.mem_filter]
      have hins : insert r.id ((rest.map (·.id)).filter (fun i => decide (i ∉ seen))).toFinset
          = insert r.id ((rest.map (·.id)).filter (fun i => decide (i ∉ r.id :: seen))).toFinset := by
        ext i
        simp only [Finset.mem_insert, List.mem_toFinset, List.mem_filter,
          decide_eq_true_eq, List.mem_cons]
        constructor
        · rintro (h | ⟨hm, hnot⟩)
          · exact Or.inl h
          · by_cases hir : i = r.id
            · exact Or.inl hir
            · exact Or.inr ⟨hm, fun hc => hc.elim (fun h => hir h) hnot⟩
        · rintro (h | ⟨hm, hnot⟩)
          · exact Or.inl h
          · exact Or.inr ⟨hm, fun hc => hnot (Or.inr hc)⟩
      rw [hins, Finset.card_insert_of_not_mem hrB]
      omega

/-- C9 (amended).  The merge performed by `Router::search` on the
concatenated per-replica results: ids in the output are pairwise
distinct; every output element is one of the inputs; the output is
sorted ascending by distance under the comparator (which treats NaN as
equal to everything — last conjunct); each output element has a distance
not above any input that shares its id (the first, smallest-distance
occurrence wins); and for `K ≥ 1` the output length is exactly
`min K (number of distinct input ids)` — i.e. it truncates to `K`.
(For `K = 0` truncation fails; see the counterexample.)  The spec's
worked example is the last-but-one conjunct. -/
theorem router_search_merge (all : List SearchResult) (k : Nat) (hk : 1 ≤ k) :
    ((searchMerge all k).map (·.id)).Nodup ∧
    (∀ a ∈ searchMerge all k, a ∈ all) ∧
    (searchMerge all k).Pairwise leD ∧
    (∀ a ∈ searchMerge all k, ∀ s ∈ all, s.id = a.id → leD a s) ∧
    (searchMerge all k).length = min k ((all.map (·.id)).toFinset.card) ∧
    searchMerge exMergeInput 3
      = [⟨7, some (mkRat 1 10)⟩, ⟨4, some (mkRat 2 10)⟩, ⟨9, some (mkRat 3 10)⟩] ∧
    (∀ d : Option ℚ, fcmp none d = .eq ∧ fcmp d none = .eq) := by
  have hperm := sortByDistance_perm all
  have hpw := sortByDistance_pairwise all
  obtain ⟨hext, hsub, hnd, hlen, hmin⟩ :=
    dedupTrunc_spec k (sortByDistance all) [] [] (by simp; omega) (by simp) (by simp)
      (by simpa using hpw)
  have hsub' : (searchMerge all k).Sublist (sortByDistance all) := by
    simpa [searchMerge] using hsub
  refine ⟨?_, ?_, ?_, ?_, ?_, ?_, ?_⟩
  · simpa [searchMerge] using hnd
  · intro a ha
    exact hperm.mem_iff.mp (hsub'.subset ha)
  · exact hpw.sublist hsub'
  · intro a ha s hs hid
    have hs' : s ∈ sortByDistance all := hperm.mem_iff.mpr hs
    have := hmin a (by simpa [searchMerge] using ha) s (by simpa using hs') hid
    exact this
  · have hfin : ((sortByDistance all).map (·.id)).toFinset
        = ((all.map (·.id)).toFinset) :=
      List.toFinset_eq_of_perm _ _ (hperm.map (·.id))
    have hfilter : ((sortByDistance all).map (·.id)).filter (fun i => decide (i ∉ ([] : List Nat)))
        = (sortByDistance all).map (·.id) := by
      simp
    rw [searchMerge, hlen, newIdCount_eq, hfilter, hfin]
    simp
  · decide
  · intro d
    cases d <;> simp [fcmp]

/-- C9 counterexample.  With `K = 0` and a non-empty merged input the
result is not truncated to `K`: the loop checks
`unique_results.len() >= k` only after pushing an element, so one
element is returned where the claim requires zero. -/
theorem router_merge_k0_counterexample :
    searchMerge [⟨1, some (mkRat 1 2)⟩] 0 = [⟨1, some (mkRat 1 2)⟩] := by
  decide

/-- Witness for C9 (amended) at the spec's worked example. -/
theorem router_search_merge_witness :
    searchMerge exMergeInput 3
      = [⟨7, some (mkRat 1 10)⟩, ⟨4, some (mkRat 2 10)⟩, ⟨9, some (mkRat 3 10)⟩] :=
  (router_search_merge exMergeInput 3 (by norm_num)).2.2.2.2.2.1

/-! ## C8: router put quorum -/

theorem put_fold (targets : List String) (respond : String → Except String Unit) :
    ∀ (n : Nat) (es : List String),
    targets.foldl
      (fun (p : Nat × List String) t =>
        match respond t with
        | .ok _ => (p.1 + 1, p.2)
        | .error e => (p.1, p.2 ++ [e]))
      (n, es)
    = (n + ackCount targets respond, es ++ errList targets respond) := by
  induction targets with
  | nil => intro n es; simp [ackCount, errList]
  | cons t ts ih =>
    intro n es
    rw [List.foldl_cons]
    cases hr : respond t with
    | ok u =>
      simp only [hr]
      rw [ih (n + 1) es]
      simp only [ackCount, errList, List.filter_cons, List.filterMap_cons, hr, isOkB]
      simp [ackCount, errList]
      omega
    | error e =>
      simp only [hr]
      rw [ih n (es ++ [e])]
      simp only [ackCount, errList, List.filter_cons, List.filterMap_cons, hr, isOkB]
      simp [ackCount, errList]

/-- C8 (amended).  `Router::put` forwards to each target of the
preference list in order, counting acknowledgements.  It returns success
iff at least `W` targets acknowledged; otherwise, after contacting all
targets, it surfaces a gRPC **Internal** error (not Unavailable) carrying
the acknowledgement count and the per-target errors.  An empty
preference list yields Unavailable up front. -/
theorem router_put_quorum (targets : List String)
    (respond : String → Except String Unit) (W : Nat) :
    (targets = [] → put targets respond W = .error (.unavailable "No nodes available")) ∧
    (targets ≠ [] →
      ((put targets respond W = .ok ()) ↔ W ≤ ackCount targets respond) ∧
      (ackCount targets respond < W →
        put targets respond W
          = .error (.internal (ackCount targets respond) (errList targets respond)))) := by
  refine ⟨?_, ?_⟩
  · intro h
    rw [put.eq_def, if_pos h]
  · intro h
    rw [put, if_neg h]
    rw [put_fold targets respond 0 []]
    simp only [Nat.zero_add, List.nil_append]
    refine ⟨⟨?_, ?_⟩, ?_⟩
    · intro hok
      by_cases hw : W ≤ ackCount targets respond
      · exact hw
      · rw [if_neg hw] at hok
        cases hok
    · intro hle
      rw [if_pos hle]
    · intro hlt
      rw [if_neg (by omega)]

/-- C8 counterexample.  A quorum miss surfaces `Status::internal`, not
`Status::unavailable` as the claim states: one unreachable target with
`W = 1` yields the Internal status carrying the per-target error. -/
theorem router_put_internal_counterexample :
    put ["http://node"] (fun _ => .error "connection refused") 1
      = .error (.internal 0 ["connection refused"]) := rfl

/-- Witness for C8 (amended): the empty-ring case and a met quorum. -/
theorem router_put_quorum_witness :
    put [] (fun _ => .ok ()) 1 = .error (.unavailable "No nodes available") ∧
    put ["a"] (fun _ => .ok ()) 1 = .ok () := by
  constructor
  · exact (router_put_quorum [] (fun _ => .ok ()) 1).1 rfl
  · exact ((router_put_quorum ["a"] (fun _ => .ok ()) 1).2 (by simp)).1.mpr
      (by simp [ackCount, isOkB])

end Router

/-! ## C7: backend put atomicity -/

namespace Server

/-- C7.  `MyVectorDb::put` error atomicity: an empty vector is rejected
with InvalidArgument and the state (WAL and index) is returned
unchanged; a failed WAL append returns an Internal error with the state
unchanged (in particular the index is not modified); and a successful
put implies the WAL append succeeded, the `{Insert, id, vector}` record
was appended, and the index insertion was applied — the insert runs only
after the WAL append has returned success. -/
theorem put_atomicity {K : Type} [LinearOrderedCommRing K] (st : BState K) (id : Nat)
    (v : List K) (appendRes : Except String Unit) (level : Nat) :
    (v = [] → put st id v appendRes level
      = some (.error (.invalidArgument "Vector cannot be empty"), st)) ∧
    (∀ e, appendRes = .error e → v ≠ [] →
      put st id v appendRes level
        = some (.error (.internal ("Failed to write to WAL: " ++ e)), st)) ∧
    (∀ r st', put st id v appendRes level = some (.ok r, st') →
      (∃ u, appendRes = .ok u) ∧
      st'.wal = st.wal ++ [⟨Wal.OpType.Insert, id, v⟩] ∧
      st.index.insert id v level = some st'.index) := by
  refine ⟨?_, ?_, ?_⟩
  · intro h
    rw [put.eq_def, if_pos h]
  · intro e he hne
    rw [put.eq_def, if_neg hne, he]
  · intro r st' hput
    by_cases hv : v = []
    · rw [put.eq_def, if_pos hv] at hput
      cases hput
    · rw [put.eq_def, if_neg hv] at hput
      cases ha : appendRes with
      | error e =>
        rw [ha] at hput
        cases hput
      | ok u =>
        rw [ha] at hput
        cases hi : st.index.insert id v level with
        | none =>
          rw [hi] at hput
          cases hput
        | some idx' =>
          rw [hi] at hput
          injection hput with h1
          injection h1 with h1 h2
          subst h2
          exact ⟨⟨u, rfl⟩, rfl, by simp [hi]⟩

/-- Witness for C7 at a concrete empty index over `ℤ`: the empty-vector
rejection and the failed-append branch both leave the state unchanged. -/
theorem put_atomicity_witness :
    put (⟨[], Hnsw.new Int 16 100⟩ : BState Int) 1 [] (.ok ()) 0
      = some (.error (.invalidArgument "Vector cannot be empty"), ⟨[], Hnsw.new Int 16 100⟩) ∧
    put (⟨[], Hnsw.new Int 16 100⟩ : BState Int) 1 [5] (.error "disk full") 0
      = some (.error (.internal "Failed to write to WAL: disk full"), ⟨[], Hnsw.new Int 16 100⟩) := by
  constructor
  · exact (put_atomicity (⟨[], Hnsw.new Int 16 100⟩ : BState Int) 1 [] (.ok ()) 0).1 rfl
  · exact (put_atomicity (⟨[], Hnsw.new Int 16 100⟩ : BState Int) 1 [5] (.error "disk full") 0).2.1
      "disk full" rfl (by simp)

end Server

/-! ## HNSW: association-list and heap lemmas -/

section HnswLemmas

variable {K : Type}

theorem hmFind?_mem {ns : List (Nat × Node K)} {j : Nat} {w : Node K}
    (h : hmFind? ns j = some w) : (j, w) ∈ ns := by
  unfold hmFind? at h
  cases hf : ns.find? (fun p => p.1 == j) with
  | none => rw [hf] at h; cases h
  | some p =>
    rw [hf] at h
    injection h with h
    have hp := List.find?_some hf
    have hmem := List.mem_of_find?_eq_some hf
    have hpj : p.1 = j := by simpa using hp
    rw [← h, ← hpj]
    exact hmem

theorem mem_hmFind? {ns : List (Nat × Node K)} (hnd : (ns.map (·.1)).Nodup)
    {j : Nat} {w : Node K} (h : (j, w) ∈ ns) : hmFind? ns j = some w := by
  induction ns with
  | nil => cases h
  | cons p ps ih =>
    rw [List.map_cons, List.nodup_cons] at hnd
    rcases List.mem_cons.mp h with h' | h'
    · subst h'
      simp [hmFind?, List.find?]
    · have hne : p.1 ≠ j := by
        intro he
        exact hnd.1 (he ▸ (List.mem_map_of_mem (·.1) h'))
      unfold hmFind?
      rw [List.find?_cons_of_neg _ (by simpa using hne)]
      exact ih hnd.2 h'

theorem hmFind?_isSome_iff {ns : List (Nat × Node K)} {j : Nat} :
    (hmFind? ns j).isSome ↔ j ∈ ns.map (·.1) := by
  unfold hmFind?
  cases hf : ns.find? (fun p => p.1 == j) with
  | none =>
    simp only [Option.map_none', Option.isSome_none, Bool.false_eq_true, false_iff]
    intro hc
    obtain ⟨p, hp, hpj⟩ := List.mem_map.mp hc
    have := List.find?_eq_none.mp hf p hp
    simp [hpj] at this
  | some p =>
    simp only [Option.map_some', Option.isSome_some, true_iff]
    have hpj : p.1 = j := by simpa using List.find?_some hf
    exact hpj ▸ List.mem_map_of_mem (·.1) (List.mem_of_find?_eq_some hf)

theorem hmSet_keys (ns : List (Nat × Node K)) (k : Nat) (v : Node K) :
    (hmSet ns k v).map (·.1) = ns.map (·.1) := by
  unfold hmSet
  rw [List.map_map]
  apply List.map_congr_left
  intro p _
  by_cases h : p.1 = k
  · simp [Function.comp, h]
  · simp [Function.comp, h]

theorem hmSet_length (ns : List (Nat × Node K)) (k : Nat) (v : Node K) :
    (hmSet ns k v).length = ns.length := by
  simp [hmSet]

theorem find?_set_ne {ns : List (Nat × Node K)} {k j : Nat} (v : Node K) (hj : j ≠ k) :
    (hmSet ns k v).find? (fun p => p.1 == j) = ns.find? (fun p => p.1 == j) := by
  induction ns with
  | nil => rfl
  | cons p ps ih =>
    unfold hmSet at *
    rw [List.map_cons]
    by_cases hpk : p.1 = k
    · rw [if_pos (by simpa using hpk),
        List.find?_cons_of_neg _ (by simpa using fun he : k = j => hj he.symm),
        List.find?_cons_of_neg _ (by rw [hpk]; simpa using fun he : k = j => hj he.symm)]
      exact ih
    · rw [if_neg (by simpa using hpk)]
      by_cases hpj : p.1 = j
      · rw [List.find?_cons_of_pos _ (by simpa using hpj),
          List.find?_cons_of_pos _ (by simpa using hpj)]
      · rw [List.find?_cons_of_neg _ (by simpa using hpj),
          List.find?_cons_of_neg _ (by simpa using hpj)]
        exact ih

theorem hmFind?_hmSet_ne {ns : List (Nat × Node K)} {k j : Nat} (v : Node K)
    (hj : j ≠ k) : hmFind? (hmSet ns k v) j = hmFind? ns j := by
  unfold hmFind?
  rw [find?_set_ne v hj]

theorem find?_set_self {ns : List (Nat × Node K)} {k : Nat} (v : Node K)
    (hk : k ∈ ns.map (·.1)) :
    (hmSet ns k v).find? (fun p => p.1 == k) = some (k, v) := by
  induction ns with
  | nil => cases hk
  | cons p ps ih =>
    unfold hmSet at *
    rw [List.map_cons]
    by_cases hpk : p.1 = k
    · rw [if_pos (by simpa using hpk), List.find?_cons_of_pos _ (by simp)]
    · rw [if_neg (by simpa using hpk), List.find?_cons_of_neg _ (by simpa using hpk)]
      have hk' : k ∈ ps.map (·.1) := by
        rcases List.mem_cons.mp (show k ∈ p.1 :: ps.map (·.1) by simpa using hk) with h' | h'
        · exact absurd h'.symm hpk
        · exact h'
      exact ih hk' 

theorem hmFind?_hmSet_self {ns : List (Nat × Node K)} {k : Nat} (v : Node K)
    (hk : k ∈ ns.map (·.1)) : hmFind? (hmSet ns k v) k = some v := by
  unfold hmFind?
  rw [find?_set_self v hk]
  rfl

theorem hmInsert_keys_fresh (ns : List (Nat × Node K)) (k : Nat) (v : Node K)
    (h : k ∉ ns.map (·.1)) : (hmInsert ns k v).map (·.1) = ns.map (·.1) ++ [k] := by
  unfold hmInsert
  rw [List.map_append]
  congr 1
  have : ns.filter (fun p => p.1 != k) = ns := by
    apply List.filter_eq_self.mpr
    intro p hp
    simpa using fun he : p.1 = k => h (he ▸ List.mem_map_of_mem (·.1) hp)
  rw [this]

theorem hmFind?_hmInsert_self (ns : List (Nat × Node K)) (k : Nat) (v : Node K) :
    hmFind? (hmInsert ns k v) k = some v := by
  unfold hmInsert hmFind?
  rw [List.find?_append]
  have h1 : (ns.filter (fun p => p.1 != k)).find? (fun p => p.1 == k) = none := by
    rw [List.find?_eq_none]
    intro p hp
    have := (List.mem_filter.mp hp).2
    simpa using this
  rw [h1]
  simp [List.find?]

theorem hmFind?_hmInsert_ne (ns : List (Nat × Node K)) (k : Nat) (v : Node K)
    {j : Nat} (hj : j ≠ k) : hmFind? (hmInsert ns k v) j = hmFind? ns j := by
  unfold hmInsert hmFind?
  rw [List.find?_append]
  have h2 : ([(k, v)].find? (fun p => p.1 == j)) = none := by
    rw [List.find?_eq_none]
    intro p hp
    have : p = (k, v) := by simpa using hp
    subst this
    simpa using fun he : k = j => hj he.symm
  rw [h2]
  have h3 : (ns.filter (fun p => p.1 != k)).find? (fun p => p.1 == j)
      = ns.find? (fun p => p.1 == j) := by
    induction ns with
    | nil => rfl
    | cons p ps ih =>
      rw [List.filter_cons]
      by_cases hpk : p.1 = k
      · rw [if_neg (by simp [hpk]), List.find?_cons_of_neg _
          (by simpa using fun he : p.1 = j => hj (he.symm.trans hpk))]
        exact ih
      · rw [if_pos (by simpa using hpk)]
        by_cases hpj : p.1 = j
        · rw [List.find?_cons_of_pos _ (by simpa using hpj),
            List.find?_cons_of_pos _ (by simpa using hpj)]
        · rw [List.find?_cons_of_neg _ (by simpa using hpj),
            List.find?_cons_of_neg _ (by simpa using hpj)]
          exact ih
  rw [h3]
  cases ns.find? (fun p => p.1 == j) <;> rfl

end HnswLemmas

section HeapLemmas

variable {K : Type} [LinearOrderedCommRing K]

theorem mem_heapPush {c x : Cand K} {l : List (Cand K)} :
    x ∈ heapPush c l ↔ x = c ∨ x ∈ l := by
  induction l with
  | nil => simp [heapPush]
  | cons y rest ih =>
    rw [heapPush]
    split
    · simp only [List.mem_cons]
      try tauto
    · simp only [List.mem_cons, ih]
      try tauto

theorem heapPush_perm (c : Cand K) (l : List (Cand K)) :
    List.Perm (heapPush c l) (c :: l) := by
  induction l with
  | nil => exact List.Perm.refl _
  | cons y rest ih =>
    rw [heapPush]
    split
    · exact List.Perm.refl _
    · exact (ih.cons y).trans (List.Perm.swap c y rest)

theorem mem_heapPushMin {c x : Cand K} {l : List (Cand K)} :
    x ∈ heapPushMin c l ↔ x = c ∨ x ∈ l := by
  induction l with
  | nil => simp [heapPushMin]
  | cons y rest ih =>
    rw [heapPushMin]
    split
    · simp only [List.mem_cons]
      try tauto
    · simp only [List.mem_cons, ih]
      try tauto

theorem heapPushMin_length (c : Cand K) (l : List (Cand K)) :
    (heapPushMin c l).length = l.length + 1 := by
  induction l with
  | nil => rfl
  | cons y rest ih =>
    rw [heapPushMin]
    split
    · rfl
    · simp only [List.length_cons, ih]

theorem heapPush_length (c : Cand K) (l : List (Cand K)) :
    (heapPush c l).length = l.length + 1 := by
  induction l with
  | nil => rfl
  | cons y rest ih =>
    rw [heapPush]
    split
    · rfl
    · simp only [List.length_cons, ih]

theorem heapPush_pairwise {c : Cand K} {l : List (Cand K)}
    (h : l.Pairwise (fun a b => b.distance ≤ a.distance)) :
    (heapPush c l).Pairwise (fun a b => b.distance ≤ a.distance) := by
  induction l with
  | nil => simp [heapPush]
  | cons y rest ih =>
    rw [List.pairwise_cons] at h
    rw [heapPush]
    split
    · rename_i hlt
      rw [List.pairwise_cons]
      refine ⟨?_, List.pairwise_cons.mpr h⟩
      intro x hx
      rcases List.mem_cons.mp hx with hx | hx
      · subst hx; exact le_of_lt hlt
      · exact le_trans (h.1 x hx) (le_of_lt hlt)
    · rename_i hge
      rw [not_lt] at hge
      rw [List.pairwise_cons]
      refine ⟨?_, ih h.2⟩
      intro x hx
      rcases mem_heapPush.mp hx with hx | hx
      · subst hx; exact hge
      · exact h.1 x hx

theorem tail_pairwise {l : List (Cand K)}
    (h : l.Pairwise (fun a b => b.distance ≤ a.distance)) :
    l.tail.Pairwise (fun a b => b.distance ≤ a.distance) := by
  cases l with
  | nil => exact h
  | cons x rest => exact (List.pairwise_cons.mp h).2

omit [LinearOrderedCommRing K] in
theorem mem_tail {x : Cand K} {l : List (Cand K)} (h : x ∈ l.tail) : x ∈ l := by
  cases l with
  | nil => cases h
  | cons y rest => exact List.mem_cons_of_mem y h

theorem listMinBy_mem {l : List (Cand K)} {c : Cand K} (h : listMinBy l = some c) :
    c ∈ l := by
  have key : ∀ (l : List (Cand K)) (acc : Option (Cand K)) (c : Cand K),
      l.foldl (fun acc x =>
        match acc with
        | none => some x
        | some a => if x.distance < a.distance then some x else acc) acc = some c →
      (acc = some c ∨ c ∈ l) := by
    intro l
    induction l with
    | nil => intro acc c h; exact Or.inl h
    | cons y rest ih =>
      intro acc c h
      rw [List.foldl_cons] at h
      rcases ih _ c h with h' | h'
      · cases acc with
        | none =>
          simp only at h'
          injection h' with h'
          exact Or.inr (List.mem_cons.mpr (Or.inl h'.symm))
        | some a =>
          by_cases hd : y.distance < a.distance
          · rw [show (match some a with
                | none => some y
                | some a => if y.distance < a.distance then some y else some a)
                = some y by simp [hd]] at h'
            injection h' with h'
            exact Or.inr (List.mem_cons.mpr (Or.inl h'.symm))
          · rw [show (match some a with
                | none => some y
                | some a => if y.distance < a.distance then some y else some a)
                = some a by simp [hd]] at h'
            exact Or.inl h'
      · exact Or.inr (List.mem_cons_of_mem y h')
  rcases key l none c h with h' | h'
  · cases h'
  · exact h'

omit [LinearOrderedCommRing K] in
theorem selectNeighbors_mem {h : List (Cand K)} {m : Nat} {x : Nat}
    (hx : x ∈ selectNeighbors h m) : ∃ c ∈ h, c.id = x := by
  unfold selectNeighbors at hx
  obtain ⟨c, hc, hcx⟩ := List.mem_map.mp hx
  exact ⟨c, (List.mem_reverse.mp (List.mem_of_mem_take hc)), hcx⟩

omit [LinearOrderedCommRing K] in
theorem selectNeighbors_length (h : List (Cand K)) (m : Nat) :
    (selectNeighbors h m).length ≤ m := by
  unfold selectNeighbors
  rw [List.length_map]
  exact (List.length_take_le _ _).trans (le_refl m)

end HeapLemmas

/-! ## HNSW: search-layer verification -/

section HnswSearchSpec

variable {K : Type} [LinearOrderedCommRing K]

theorem nodup_sub_length {l l' : List Nat} (hnd : l.Nodup)
    (hsub : ∀ x ∈ l, x ∈ l') : l.length ≤ l'.length :=
  (List.subperm_of_subset hnd fun x hx => hsub x hx).length_le

omit [LinearOrderedCommRing K] in
theorem topOk_mono {self : Hnsw K} {l l' j : Nat} (hle : l' ≤ l)
    (h : self.topOk l j) : self.topOk l' j := by
  obtain ⟨n, hn, hl⟩ := h
  exact ⟨n, hn, lt_of_le_of_lt hle hl⟩

theorem nodup_tail {l : List Nat} (h : l.Nodup) : l.tail.Nodup := by
  cases l with
  | nil => exact h
  | cons x rest => exact (List.nodup_cons.mp h).2

theorem slVisit_spec {self : Hnsw K} {q : List K} (ef : Nat) {layer : Nat}
    {visited : List Nat} {cands nn : List (Cand K)} {nid : Nat}
    (hinv : self.SLInv q layer visited cands nn)
    (htop : self.topOk layer nid) :
    ∃ visited' cands' nn',
      self.slVisit q ef (visited, cands, nn) nid = some (visited', cands', nn') ∧
      self.SLInv q layer visited' cands' nn' ∧
      (∀ x ∈ visited, x ∈ visited') ∧
      self.nodes.length - visited'.length + cands'.length
        ≤ self.nodes.length - visited.length + cands.length := by
  obtain ⟨hnd, hvk, hcd, hnn, hni, hpw, hne⟩ := hinv
  obtain ⟨nnode, hfind, hlt⟩ := htop
  by_cases hmem : nid ∈ visited
  · refine ⟨visited, cands, nn, ?_, ⟨hnd, hvk, hcd, hnn, hni, hpw, hne⟩,
      fun x hx => hx, le_refl _⟩
    simp [Hnsw.slVisit, hmem]
  · have hndc : (nid :: visited).Nodup := List.nodup_cons.mpr ⟨hmem, hnd⟩
    have hvkc : ∀ x ∈ nid :: visited, x ∈ self.nodes.map (·.1) := by
      intro x hx
      rcases List.mem_cons.mp hx with h | h
      · subst h; exact hmFind?_isSome_iff.mp (by rw [hfind]; rfl)
      · exact hvk x h
    have hvlen : visited.length + 1 ≤ self.nodes.length := by
      have := nodup_sub_length hndc hvkc
      simpa [List.length_map] using this
    -- the shared push-branch state
    set d := dist q nnode.vector with hd
    set nnP := heapPush ⟨nid, d⟩ nn with hnnP
    set nn' := if ef < nnP.length then nnP.tail else nnP with hnn'
    have hcandok : self.candOk q layer ⟨nid, d⟩ := ⟨nnode, hfind, rfl, hlt⟩
    have hnidnotnn : nid ∉ nn.map (·.id) := by
      intro hc
      obtain ⟨c, hc1, hc2⟩ := List.mem_map.mp hc
      exact hmem (hc2 ▸ (hnn c hc1).1)
    have hmain : self.SLInv q layer (nid :: visited)
        (heapPushMin ⟨nid, d⟩ cands) nn' := by
      refine ⟨hndc, hvkc, ?_, ?_, ?_, ?_, ?_⟩
      · intro c hc
        rcases mem_heapPushMin.mp hc with h | h
        · subst h; exact ⟨List.mem_cons_self _ _, hcandok⟩
        · exact ⟨List.mem_cons_of_mem _ (hcd c h).1, (hcd c h).2⟩
      · intro c hc
        have hcP : c ∈ nnP := by
          rw [hnn'] at hc
          by_cases hc' : ef < nnP.length
          · rw [if_pos hc'] at hc; exact mem_tail hc
          · rw [if_neg hc'] at hc; exact hc
        rcases mem_heapPush.mp hcP with h | h
        · subst h; exact ⟨List.mem_cons_self _ _, hcandok⟩
        · exact ⟨List.mem_cons_of_mem _ (hnn c h).1, (hnn c h).2⟩
      · have hP : (nnP.map (·.id)).Nodup := by
          have hperm : List.Perm (nnP.map (·.id))
              (((⟨nid, d⟩ : Cand K) :: nn).map (·.id)) :=
            (heapPush_perm _ _).map (·.id)
          rw [hperm.nodup_iff]
          exact List.nodup_cons.mpr ⟨hnidnotnn, hni⟩
        rw [hnn']
        by_cases hc' : ef < nnP.length
        · rw [if_pos hc']
          rw [List.map_tail]
          exact nodup_tail hP
        · rw [if_neg hc']; exact hP
      · have hPw : nnP.Pairwise (fun a b => b.distance ≤ a.distance) :=
          heapPush_pairwise hpw
        rw [hnn']
        by_cases hc' : ef < nnP.length
        · rw [if_pos hc']; exact tail_pairwise hPw
        · rw [if_neg hc']; exact hPw
      · have hPlen : nnP.length = nn.length + 1 := heapPush_length _ _
        rw [hnn']
        by_cases hc' : ef < nnP.length
        · rw [if_pos hc', List.length_tail]; omega
        · rw [if_neg hc']; omega
    have hmeas : self.nodes.length - (nid :: visited).length
        + (heapPushMin ⟨nid, d⟩ cands).length
        ≤ self.nodes.length - visited.length + cands.length := by
      rw [heapPushMin_length, List.length_cons]
      omega
    by_cases hfull : nn.length < ef
    · refine ⟨nid :: visited, heapPushMin ⟨nid, d⟩ cands, nn', ?_, hmain,
        fun x hx => List.mem_cons_of_mem _ hx, hmeas⟩
      simp only [Hnsw.slVisit, hd, hnn', hnnP]
      rw [if_neg hmem, hfind]
      simp [hfull]
    · cases hh : nn.head? with
      | none =>
        rw [List.head?_eq_none_iff] at hh
        rw [hh] at hne
        simp at hne
      | some worst =>
        by_cases hbeat : d < worst.distance
        · refine ⟨nid :: visited, heapPushMin ⟨nid, d⟩ cands, nn', ?_, hmain,
            fun x hx => List.mem_cons_of_mem _ hx, hmeas⟩
          simp only [Hnsw.slVisit, hd, hnn', hnnP]
          rw [if_neg hmem, hfind]
          simp [hfull, hh, hbeat]
        · refine ⟨nid :: visited, cands, nn, ?_,
            ⟨hndc, hvkc,
             fun c hc => ⟨List.mem_cons_of_mem _ (hcd c hc).1, (hcd c hc).2⟩,
             fun c hc => ⟨List.mem_cons_of_mem _ (hnn c hc).1, (hnn c hc).2⟩,
             hni, hpw, hne⟩,
            fun x hx => List.mem_cons_of_mem _ hx, ?_⟩
          · simp only [Hnsw.slVisit, hd]
            rw [if_neg hmem, hfind]
            simp [hfull, hh, hbeat]
          · rw [List.length_cons]
            omega

theorem slFold_spec {self : Hnsw K} {q : List K} {ef layer : Nat} :
    ∀ (ns : List Nat) (visited : List Nat) (cands nn : List (Cand K)),
      self.SLInv q layer visited cands nn →
      (∀ j ∈ ns, self.topOk layer j) →
      ∃ visited' cands' nn',
        ns.foldlM (self.slVisit q ef) (visited, cands, nn)
          = some (visited', cands', nn') ∧
        self.SLInv q layer visited' cands' nn' ∧
        (∀ x ∈ visited, x ∈ visited') ∧
        self.nodes.length - visited'.length + cands'.length
          ≤ self.nodes.length - visited.length + cands.length := by
  intro ns
  induction ns with
  | nil =>
    intro visited cands nn hinv _
    exact ⟨visited, cands, nn, rfl, hinv, fun x hx => hx, le_refl _⟩
  | cons j rest ih =>
    intro visited cands nn hinv htop
    obtain ⟨v1, c1, n1, hstep, hinv1, hgrow1, hmeas1⟩ :=
      slVisit_spec ef hinv (htop j (List.mem_cons_self _ _))
    obtain ⟨v2, c2, n2, hfold, hinv2, hgrow2, hmeas2⟩ :=
      ih v1 c1 n1 hinv1 (fun j' hj' => htop j' (List.mem_cons_of_mem _ hj'))
    refine ⟨v2, c2, n2, ?_, hinv2, fun x hx => hgrow2 x (hgrow1 x hx),
      le_trans hmeas2 hmeas1⟩
    rw [List.foldlM_cons, hstep]
    exact hfold

theorem searchLayerLoop_spec {self : Hnsw K} {q : List K} {ef layer : Nat}
    (href : ∀ p ∈ self.nodes, ∀ l lst, (p.2).layers.get? l = some lst →
      ∀ j ∈ lst, self.topOk l j) :
    ∀ (fuel : Nat) (visited : List Nat) (cands nn : List (Cand K)),
      self.SLInv q layer visited cands nn →
      self.nodes.length - visited.length + cands.length < fuel →
      ∃ res, self.searchLayerLoop q ef layer fuel visited cands nn = some res ∧
        (∀ c ∈ res, self.candOk q layer c) ∧
        (∀ c ∈ res, c.id ∈ self.nodes.map (·.1)) ∧
        (res.map (·.id)).Nodup ∧
        res.Pairwise (fun a b => b.distance ≤ a.distance) ∧
        1 ≤ res.length := by
  intro fuel
  induction fuel with
  | zero => intro visited cands nn _ hfuel; omega
  | succ fuel ih =>
    intro visited cands nn hinv hfuel
    have hout : ∀ nn' : List (Cand K), self.SLInv q layer visited cands nn' →
        (∀ c ∈ nn', self.candOk q layer c) ∧
        (∀ c ∈ nn', c.id ∈ self.nodes.map (·.1)) ∧
        (nn'.map (·.id)).Nodup ∧
        nn'.Pairwise (fun a b => b.distance ≤ a.distance) ∧ 1 ≤ nn'.length := by
      intro nn' hinv'
      obtain ⟨_, hvk, _, hnn, hni, hpw, hne⟩ := hinv'
      refine ⟨fun c hc => (hnn c hc).2, fun c hc => hvk c.id (hnn c hc).1, hni, hpw, hne⟩
    cases hcs : cands with
    | nil =>
      obtain ⟨hnd, hvk, hcd, hnn, hni, hpw, hne⟩ := hinv
      refine ⟨nn, ?_, (hout nn ⟨hnd, hvk, hcd, hnn, hni, hpw, hne⟩).1,
        (hout nn ⟨hnd, hvk, hcd, hnn, hni, hpw, hne⟩).2⟩
      rw [Hnsw.searchLayerLoop]
    | cons curr cands' =>
      subst hcs
      obtain ⟨hnd, hvk, hcd, hnn, hni, hpw, hne⟩ := hinv
      have hinv' : self.SLInv q layer visited cands' nn :=
        ⟨hnd, hvk, fun c hc => hcd c (List.mem_cons_of_mem _ hc), hnn, hni, hpw, hne⟩
      obtain ⟨cnode, hcfind, hcdist, hclt⟩ := (hcd curr (List.mem_cons_self _ _)).2
      rw [Hnsw.searchLayerLoop]
      by_cases hstop : (match nn.head? with
        | some furthest =>
            decide (furthest.distance < curr.distance) && decide (ef ≤ nn.length)
        | none => false) = true
      · rw [if_pos hstop]
        exact ⟨nn, rfl, (hout nn ⟨hnd, hvk, hcd, hnn, hni, hpw, hne⟩).1,
          (hout nn ⟨hnd, hvk, hcd, hnn, hni, hpw, hne⟩).2⟩
      · rw [if_neg hstop, hcfind]
        dsimp only
        cases hlay : cnode.layers.get? layer with
        | none =>
          dsimp only
          apply ih visited cands' nn hinv'
          simp only [List.length_cons] at hfuel
          omega
        | some neighbors =>
          dsimp only
          have htopn : ∀ j ∈ neighbors, self.topOk layer j :=
            href (curr.id, cnode) (hmFind?_mem hcfind) layer neighbors hlay
          obtain ⟨v1, c1, n1, hfold, hinv1, _, hmeas1⟩ :=
            slFold_spec neighbors visited cands' nn hinv' htopn
          rw [hfold]
          dsimp only
          apply ih v1 c1 n1 hinv1
          simp only [List.length_cons] at hfuel
          omega

theorem search_layer_spec {self : Hnsw K} {q : List K} (ef : Nat) {layer : Nat}
    (href : ∀ p ∈ self.nodes, ∀ l lst, (p.2).layers.get? l = some lst →
      ∀ j ∈ lst, self.topOk l j)
    {ep : Nat} (hep : self.topOk layer ep) :
    ∃ res, self.search_layer q ep ef layer = some res ∧
      (∀ c ∈ res, self.candOk q layer c) ∧
      (∀ c ∈ res, c.id ∈ self.nodes.map (·.1)) ∧
      (res.map (·.id)).Nodup ∧
      res.Pairwise (fun a b => b.distance ≤ a.distance) ∧
      1 ≤ res.length := by
  obtain ⟨enode, hfind, hlt⟩ := hep
  have hmemk : ep ∈ self.nodes.map (·.1) :=
    hmFind?_isSome_iff.mp (by rw [hfind]; rfl)
  have hpos : 1 ≤ self.nodes.length := by
    cases hns : self.nodes with
    | nil => rw [hns] at hmemk; cases hmemk
    | cons _ _ => simp
  have hinv : self.SLInv q layer [ep] [⟨ep, dist q enode.vector⟩]
      [⟨ep, dist q enode.vector⟩] := by
    refine ⟨List.nodup_singleton _, ?_, ?_, ?_, List.nodup_singleton _,
      List.pairwise_singleton _ _, by simp⟩
    · intro x hx
      rw [List.mem_singleton] at hx
      subst hx; exact hmemk
    · intro c hc
      rw [List.mem_singleton] at hc
      subst hc
      exact ⟨List.mem_singleton_self _, enode, hfind, rfl, hlt⟩
    · intro c hc
      rw [List.mem_singleton] at hc
      subst hc
      exact ⟨List.mem_singleton_self _, enode, hfind, rfl, hlt⟩
  obtain ⟨res, hloop, hres⟩ := searchLayerLoop_spec href (self.nodes.length + 1)
    [ep] [⟨ep, dist q enode.vector⟩] [⟨ep, dist q enode.vector⟩] hinv (by
      simp only [List.length_singleton]
      omega)
  refine ⟨res, ?_, hres⟩
  simp only [Hnsw.search_layer, hfind, Option.bind_eq_bind, Option.some_bind]
  exact hloop

end HnswSearchSpec

/-! ## HNSW: greedy-descent verification -/

section HnswGreedySpec

variable {K : Type} [LinearOrderedCommRing K]

theorem sublist_length_lt {A : Type} {l₁ l₂ : List A} (h : List.Sublist l₁ l₂)
    {x : A} (hx2 : x ∈ l₂) (hx1 : x ∉ l₁) : l₁.length < l₂.length := by
  rcases lt_or_eq_of_le h.length_le with h' | h'
  · exact h'
  · exact absurd (h.eq_of_length h' ▸ hx2) hx1

theorem gmeasure_le (self : Hnsw K) (q : List K) (d : K) :
    self.gmeasure q d ≤ self.nodes.length :=
  List.length_filter_le _ _

theorem gmeasure_lt {self : Hnsw K} {q : List K} {d d' : K}
    (hep : self.EpOk q ep' d') (hlt : d' < d) :
    self.gmeasure q d' < self.gmeasure q d := by
  obtain ⟨n, hfind, hd⟩ := hep
  have hsub : List.Sublist
      (self.nodes.filter (fun p => decide (dist q (p.2).vector < d')))
      (self.nodes.filter (fun p => decide (dist q (p.2).vector < d))) := by
    apply List.monotone_filter_right
    intro p hp
    simp only [decide_eq_true_eq] at hp ⊢
    exact lt_trans hp hlt
  apply sublist_length_lt hsub (x := (ep', n))
  · rw [List.mem_filter]
    exact ⟨hmFind?_mem hfind, by simp [← hd, hlt]⟩
  · rw [List.mem_filter]
    rintro ⟨-, hc⟩
    simp only [← hd, decide_eq_true_eq, lt_self_iff_false] at hc

theorem gpFold_spec {self : Hnsw K} {q : List K} {l : Nat} (ep0 : Nat) (d0 : K) :
    ∀ (ns : List Nat) (st : Nat × K × Bool),
      (self.EpOk q st.1 st.2.1 ∧ (st.1 = ep0 ∨ self.topOk l st.1) ∧
        st.2.1 ≤ d0 ∧ (st.2.2 = true → st.2.1 < d0)) →
      (∀ j ∈ ns, self.topOk l j) →
      ∃ st', ns.foldlM (self.gpStep q) st = some st' ∧
        (self.EpOk q st'.1 st'.2.1 ∧ (st'.1 = ep0 ∨ self.topOk l st'.1) ∧
          st'.2.1 ≤ d0 ∧ (st'.2.2 = true → st'.2.1 < d0)) := by
  intro ns
  induction ns with
  | nil => intro st hst _; exact ⟨st, rfl, hst⟩
  | cons j rest ih =>
    intro st hst htop
    obtain ⟨n, hfind, hlt⟩ := htop j (List.mem_cons_self _ _)
    by_cases hbeat : dist q n.vector < st.2.1
    · obtain ⟨st', hfold, hst'⟩ := ih (j, dist q n.vector, true)
        ⟨⟨n, hfind, rfl⟩, Or.inr ⟨n, hfind, hlt⟩,
          le_of_lt (lt_of_lt_of_le hbeat hst.2.2.1),
          fun _ => lt_of_lt_of_le hbeat hst.2.2.1⟩
        (fun j' hj' => htop j' (List.mem_cons_of_mem _ hj'))
      refine ⟨st', ?_, hst'⟩
      rw [List.foldlM_cons]
      simp only [Hnsw.gpStep, hfind, Option.bind_eq_bind, Option.some_bind,
        if_pos hbeat]
      exact hfold
    · obtain ⟨st', hfold, hst'⟩ := ih st hst
        (fun j' hj' => htop j' (List.mem_cons_of_mem _ hj'))
      refine ⟨st', ?_, hst'⟩
      rw [List.foldlM_cons]
      simp only [Hnsw.gpStep, hfind, Option.bind_eq_bind, Option.some_bind,
        if_neg hbeat]
      exact hfold

theorem greedyPass_spec {self : Hnsw K} {q : List K} {l : Nat} {ep : Nat} {d : K}
    (href : ∀ p ∈ self.nodes, ∀ l' lst, (p.2).layers.get? l' = some lst →
      ∀ j ∈ lst, self.topOk l' j)
    (hep : self.EpOk q ep d) :
    ∃ ep' d' ch, self.greedyPass q l ep d = some (ep', d', ch) ∧
      self.EpOk q ep' d' ∧ (ep' = ep ∨ self.topOk l ep') ∧ d' ≤ d ∧
      (ch = true → d' < d) := by
  obtain ⟨n, hfind, hd⟩ := hep
  cases hlay : n.layers.get? l with
  | none =>
    refine ⟨ep, d, false, ?_, ⟨n, hfind, hd⟩, Or.inl rfl, le_refl _, by simp⟩
    simp only [Hnsw.greedyPass, hfind, Option.bind_eq_bind, Option.some_bind, hlay]
  | some neighbors =>
    have htopn : ∀ j ∈ neighbors, self.topOk l j :=
      href (ep, n) (hmFind?_mem hfind) l neighbors hlay
    obtain ⟨st', hfold, hst'⟩ := gpFold_spec ep d neighbors
      (ep, d, false) ⟨⟨n, hfind, hd⟩, Or.inl rfl, le_refl _, by simp⟩ htopn
    refine ⟨st'.1, st'.2.1, st'.2.2, ?_, hst'.1, hst'.2.1, hst'.2.2.1, hst'.2.2.2⟩
    simp only [Hnsw.greedyPass, hfind, Option.bind_eq_bind, Option.some_bind, hlay]
    exact hfold

theorem greedyLoop_spec {self : Hnsw K} {q : List K} {l : Nat}
    (href : ∀ p ∈ self.nodes, ∀ l' lst, (p.2).layers.get? l' = some lst →
      ∀ j ∈ lst, self.topOk l' j) :
    ∀ (fuel : Nat) (ep : Nat) (d : K), self.EpOk q ep d →
      self.gmeasure q d < fuel →
      ∃ ep' d', self.greedyLoop q l fuel ep d = some (ep', d') ∧
        self.EpOk q ep' d' ∧ (ep' = ep ∨ self.topOk l ep') ∧ d' ≤ d := by
  intro fuel
  induction fuel with
  | zero => intro ep d _ hfuel; omega
  | succ fuel ih =>
    intro ep d hep hfuel
    obtain ⟨ep1, d1, ch, hpass, hep1, hor1, hle1, hch1⟩ := greedyPass_spec href hep
    cases ch with
    | false =>
      refine ⟨ep1, d1, ?_, hep1, hor1, hle1⟩
      simp only [Hnsw.greedyLoop, hpass, Option.bind_eq_bind, Option.some_bind]
      rfl
    | true =>
      have hd1 : d1 < d := hch1 rfl
      obtain ⟨ep', d', hloop, hep', hor', hle'⟩ := ih ep1 d1 hep1 (by
        have := gmeasure_lt hep1 hd1
        omega)
      refine ⟨ep', d', ?_, hep', ?_, le_of_lt (lt_of_le_of_lt hle' hd1)⟩
      · simp only [Hnsw.greedyLoop, hpass, Option.bind_eq_bind, Option.some_bind]
        exact hloop
      · rcases hor' with h | h
        · rw [h]; exact hor1
        · exact Or.inr h

theorem greedyDescent_spec {self : Hnsw K} {q : List K}
    (href : ∀ p ∈ self.nodes, ∀ l' lst, (p.2).layers.get? l' = some lst →
      ∀ j ∈ lst, self.topOk l' j) :
    ∀ (ls : List Nat) (ep : Nat) (d : K), self.EpOk q ep d →
      ∃ ep' d', self.greedyDescent q ls ep d = some (ep', d') ∧
        self.EpOk q ep' d' ∧ (ep' = ep ∨ ∃ l ∈ ls, self.topOk l ep') ∧ d' ≤ d := by
  intro ls
  induction ls with
  | nil =>
    intro ep d hep
    exact ⟨ep, d, rfl, hep, Or.inl rfl, le_refl _⟩
  | cons l rest ih =>
    intro ep d hep
    obtain ⟨ep1, d1, hloop, hep1, hor1, hle1⟩ :=
      greedyLoop_spec href (self.nodes.length + 1) ep d hep
        (lt_of_le_of_lt (gmeasure_le self q d) (Nat.lt_succ_self _))
    obtain ⟨ep', d', hrest, hep', hor', hle'⟩ := ih ep1 d1 hep1
    refine ⟨ep', d', ?_, hep', ?_, le_trans hle' hle1⟩
    · simp only [Hnsw.greedyDescent, List.foldlM_cons, Option.bind_eq_bind]
      rw [hloop]
      simp only [Option.some_bind]
      simp only [Hnsw.greedyDescent] at hrest
      exact hrest
    · rcases hor' with h | h
      · rw [h]
        rcases hor1 with h1 | h1
        · exact Or.inl h1
        · exact Or.inr ⟨l, List.mem_cons_self _ _, h1⟩
      · obtain ⟨l', hl', htop⟩ := h
        exact Or.inr ⟨l', List.mem_cons_of_mem _ hl', htop⟩

end HnswGreedySpec

/-! ## HNSW: insert invariant preservation -/

section HnswInsertSpec

variable {K : Type} [LinearOrderedCommRing K]

theorem list_get?_set_self {A : Type} (l : List A) (n : Nat) (a : A)
    (h : n < l.length) : (l.set n a).get? n = some a := by
  rw [List.get?_eq_getElem?, List.getElem?_set_self]
  simp [h]

theorem list_get?_set_ne {A : Type} (l : List A) (n m : Nat) (a : A) (h : n ≠ m) :
    (l.set n a).get? m = l.get? m := by
  rw [List.get?_eq_getElem?, List.getElem?_set_ne h, List.get?_eq_getElem?]

theorem get?_of_lt {A : Type} {l : List A} {n : Nat} (h : n < l.length) :
    ∃ a, l.get? n = some a := by
  cases hg : l.get? n with
  | none => exact absurd (List.get?_eq_none.mp hg) (by omega)
  | some a => exact ⟨a, rfl⟩

omit [LinearOrderedCommRing K] in
theorem mem_hmSet {ns : List (Nat × Node K)} {k : Nat} {v : Node K}
    {p : Nat × Node K} (hp : p ∈ hmSet ns k v) :
    p = (k, v) ∨ (p ∈ ns ∧ p.1 ≠ k) := by
  unfold hmSet at hp
  obtain ⟨p0, hp0, hpeq⟩ := List.mem_map.mp hp
  by_cases hpk : p0.1 = k
  · left; rw [← hpeq, if_pos (by simpa using hpk)]
  · right
    rw [← hpeq, if_neg (by simpa using hpk)]
    exact ⟨hp0, hpk⟩

omit [LinearOrderedCommRing K] in
theorem topOk_set {s s' : Hnsw K} {k : Nat} {v nk : Node K}
    (hs' : s'.nodes = hmSet s.nodes k v)
    (hfind : hmFind? s.nodes k = some nk)
    (hlen : v.layers.length = nk.layers.length)
    {l j : Nat} (h : s.topOk l j) : s'.topOk l j := by
  obtain ⟨n, hn, hl⟩ := h
  by_cases hjk : j = k
  · subst hjk
    rw [hfind] at hn
    injection hn with hn
    subst hn
    refine ⟨v, ?_, by rw [hlen]; exact hl⟩
    rw [hs']
    exact hmFind?_hmSet_self v (hmFind?_isSome_iff.mp (by rw [hfind]; rfl))
  · refine ⟨n, ?_, hl⟩
    rw [hs', hmFind?_hmSet_ne v hjk]
    exact hn

omit [LinearOrderedCommRing K] in
theorem Inv_set {s s' : Hnsw K} {k : Nat} {v nk : Node K}
    (hfind : hmFind? s.nodes k = some nk)
    (hn : s'.nodes = hmSet s.nodes k v)
    (hent : s'.entry_point = s.entry_point)
    (hmax : s'.max_layers = s.max_layers)
    (hm : s'.m = s.m) (hmm : s'.m_max0 = s.m_max0)
    (hid : v.id = nk.id) (hlen : v.layers.length = nk.layers.length)
    (hinv : s.Inv)
    (hlayers : ∀ l lst, v.layers.get? l = some lst →
      nk.layers.get? l = some lst ∨
      (lst.length ≤ (if l = 0 then s.m_max0 else s.m) ∧
        ∀ j ∈ lst, s.topOk l j)) :
    s'.Inv := by
  obtain ⟨hnd, hmle, hnodes, hentry⟩ := hinv
  have hkmem : k ∈ s.nodes.map (·.1) := hmFind?_isSome_iff.mp (by rw [hfind]; rfl)
  have hknk := hnodes (k, nk) (hmFind?_mem hfind)
  refine ⟨?_, ?_, ?_, ?_⟩
  · rw [hn, hmSet_keys]; exact hnd
  · rw [hm, hmm]; exact hmle
  · intro p hp
    rw [hn] at hp
    rcases mem_hmSet hp with hpv | ⟨hpm, hpk⟩
    · subst hpv
      refine ⟨by rw [hid]; exact hknk.1, by rw [hlen]; exact hknk.2.1, ?_⟩
      intro l lst hg
      rcases hlayers l lst hg with hnk | ⟨hb, ht⟩
      · obtain ⟨hb, ht⟩ := hknk.2.2 l lst hnk
        rw [hm, hmm]
        exact ⟨hb, fun j hj => topOk_set hn hfind hlen (ht j hj)⟩
      · rw [hm, hmm]
        exact ⟨hb, fun j hj => topOk_set hn hfind hlen (ht j hj)⟩
    · obtain ⟨h1, h2, h3⟩ := hnodes p hpm
      refine ⟨h1, h2, ?_⟩
      intro l lst hg
      obtain ⟨hb, ht⟩ := h3 l lst hg
      rw [hm, hmm]
      exact ⟨hb, fun j hj => topOk_set hn hfind hlen (ht j hj)⟩
  · rw [hent]
    cases he : s.entry_point with
    | none =>
      rw [he] at hentry
      simp only
      rw [hn, hentry]
      rfl
    | some e =>
      rw [he] at hentry
      obtain ⟨en, hene, henl⟩ := hentry
      simp only
      by_cases hek : e = k
      · subst hek
        rw [hene] at hfind
        injection hfind with hfind
        refine ⟨v, ?_, ?_⟩
        · rw [hn]
          exact hmFind?_hmSet_self v hkmem
        · rw [hlen, ← hfind, henl, hmax]
      · refine ⟨en, ?_, by rw [hmax]; exact henl⟩
        rw [hn, hmFind?_hmSet_ne v hek]
        exact hene

theorem pruneList_spec {self : Hnsw K} (nvec : List K) {lst : List Nat} (mm : Nat)
    (hmem : ∀ j ∈ lst, j ∈ self.nodes.map (·.1)) :
    ∃ pr, pruneList self nvec lst mm = some pr ∧
      pr.length = min mm lst.length ∧ ∀ x ∈ pr, x ∈ lst := by
  have key : ∀ (l : List Nat) (acc : List (Cand K)),
      (∀ j ∈ l, j ∈ self.nodes.map (·.1)) →
      ∃ heap, l.foldlM
          (fun (h : List (Cand K)) nid => do
            let n ← hmFind? self.nodes nid
            return heapPush ⟨nid, dist nvec n.vector⟩ h) acc = some heap ∧
        heap.length = acc.length + l.length ∧
        (∀ c ∈ heap, c.id ∈ l ∨ c ∈ acc) := by
    intro l
    induction l with
    | nil =>
      intro acc _
      exact ⟨acc, rfl, by simp, fun c hc => Or.inr hc⟩
    | cons j rest ih =>
      intro acc hm
      obtain ⟨n, hn⟩ := Option.isSome_iff_exists.mp
        (hmFind?_isSome_iff.mpr (hm j (List.mem_cons_self _ _)))
      obtain ⟨heap, hfold, hlen, hmemh⟩ := ih (heapPush ⟨j, dist nvec n.vector⟩ acc)
        (fun x hx => hm x (List.mem_cons_of_mem _ hx))
      refine ⟨heap, ?_, ?_, ?_⟩
      · rw [List.foldlM_cons]
        simp only [hn, Option.bind_eq_bind, Option.some_bind]
        exact hfold
      · rw [hlen, heapPush_length]
        simp only [List.length_cons]
        omega
      · intro c hc
        rcases hmemh c hc with h | h
        · exact Or.inl (List.mem_cons_of_mem _ h)
        · rcases mem_heapPush.mp h with h' | h'
          · subst h'; exact Or.inl (List.mem_cons_self _ _)
          · exact Or.inr h'
  obtain ⟨heap, hfold, hlen, hmemh⟩ := key lst [] hmem
  refine ⟨(heap.drop (heap.length - mm)).map (·.id), ?_, ?_, ?_⟩
  · have hre : pruneList self nvec lst mm
        = (lst.foldlM
            (fun (h : List (Cand K)) nid => do
              let n ← hmFind? self.nodes nid
              return heapPush ⟨nid, dist nvec n.vector⟩ h) []).bind
          (fun heap : List (Cand K) =>
            some ((heap.drop (heap.length - mm)).map (fun c : Cand K => c.id))) := rfl
    rw [hre, hfold]
    rfl
  · rw [List.length_map, List.length_drop]
    simp only [List.length_nil, Nat.zero_add] at hlen
    omega
  · intro x hx
    obtain ⟨c, hc, hcx⟩ := List.mem_map.mp hx
    rcases hmemh c (List.mem_of_mem_drop hc) with h | h
    · exact hcx ▸ h
    · cases h

theorem pruneList_congr {s t : Hnsw K}
    (hv : ∀ j, (hmFind? t.nodes j).map (·.vector)
      = (hmFind? s.nodes j).map (·.vector))
    (nvec : List K) (lst : List Nat) (mm : Nat) :
    pruneList t nvec lst mm = pruneList s nvec lst mm := by
  have key : ∀ (l : List Nat) (acc : List (Cand K)),
      l.foldlM
          (fun (h : List (Cand K)) nid => do
            let n ← hmFind? t.nodes nid
            return heapPush ⟨nid, dist nvec n.vector⟩ h) acc
        = l.foldlM
          (fun (h : List (Cand K)) nid => do
            let n ← hmFind? s.nodes nid
            return heapPush ⟨nid, dist nvec n.vector⟩ h) acc := by
    intro l
    induction l with
    | nil => intro acc; rfl
    | cons j rest ih =>
      intro acc
      rw [List.foldlM_cons, List.foldlM_cons]
      cases hfs : hmFind? s.nodes j with
      | none =>
        have hft : hmFind? t.nodes j = none := by
          have := hv j
          rw [hfs] at this
          simp only [Option.map_none'] at this
          exact Option.map_eq_none'.mp this
        simp [hfs, hft]
      | some n =>
        have := hv j
        rw [hfs] at this
        simp only [Option.map_some'] at this
        obtain ⟨n', hft, hvec⟩ := Option.map_eq_some'.mp this
        simp only [hfs, hft, Option.bind_eq_bind, Option.some_bind, hvec]
        exact ih _
  have hre : ∀ (u : Hnsw K), pruneList u nvec lst mm
      = (lst.foldlM
          (fun (h : List (Cand K)) nid => do
            let n ← hmFind? u.nodes nid
            return heapPush ⟨nid, dist nvec n.vector⟩ h) []).bind
        (fun heap : List (Cand K) =>
          some ((heap.drop (heap.length - mm)).map (fun c : Cand K => c.id))) :=
    fun u => rfl
  rw [hre t, hre s, key]

omit [LinearOrderedCommRing K] in
theorem find_vecmap_eq {s t : Hnsw K}
    (hk : t.nodes.map (·.1) = s.nodes.map (·.1))
    (hp : ∀ j n, hmFind? s.nodes j = some n →
      ∃ n', hmFind? t.nodes j = some n' ∧ n'.vector = n.vector) :
    ∀ j, (hmFind? t.nodes j).map (·.vector)
      = (hmFind? s.nodes j).map (·.vector) := by
  intro j
  cases hfs : hmFind? s.nodes j with
  | none =>
    have hnotin : j ∉ s.nodes.map (·.1) := by
      intro hc
      have := hmFind?_isSome_iff.mpr hc
      rw [hfs] at this
      cases this
    cases hft : hmFind? t.nodes j with
    | none => rfl
    | some w =>
      exact absurd (hk ▸ hmFind?_isSome_iff.mp (by rw [hft]; rfl)) hnotin
  | some n =>
    obtain ⟨n', hft, hvec⟩ := hp j n hfs
    rw [hft]
    simp [hvec]

theorem backlinked_congr {s t : Hnsw K} (hm : t.m = s.m) (hmm : t.m_max0 = s.m_max0)
    (hv : ∀ j, (hmFind? t.nodes j).map (·.vector)
      = (hmFind? s.nodes j).map (·.vector))
    {id : Nat} {nvec : List K} {l : Nat} {old new : List Nat}
    (h : s.backlinked id nvec l old new) : t.backlinked id nvec l old new := by
  unfold Hnsw.backlinked at h ⊢
  rw [hm, hmm, pruneList_congr hv]
  exact h

theorem linkOne_spec {st : Hnsw K} {id l nid : Nat}
    (hinv : st.Inv) (htopn : st.topOk l nid) (htopid : st.topOk l id) :
    ∃ nnode lst new st',
      hmFind? st.nodes nid = some nnode ∧
      nnode.layers.get? l = some lst ∧
      Hnsw.linkOne id l st nid = some st' ∧
      st'.nodes = (hmSet st.nodes nid
        { nnode with layers := nnode.layers.set l new }) ∧
      st'.entry_point = st.entry_point ∧ st'.max_layers = st.max_layers ∧
      st'.m = st.m ∧ st'.m_max0 = st.m_max0 ∧
      st'.ef_construction = st.ef_construction ∧
      st.backlinked id nnode.vector l lst new ∧
      st'.Inv := by
  obtain ⟨nnode, hfind, hlt⟩ := htopn
  obtain ⟨lst, hg⟩ := get?_of_lt hlt
  have hrefs : ∀ j ∈ lst, st.topOk l j :=
    ((hinv.2.2.1 (nid, nnode) (hmFind?_mem hfind)).2.2 l lst hg).2
  have hmemlst : ∀ j ∈ lst ++ [id], j ∈ st.nodes.map (·.1) := by
    intro j hj
    rcases List.mem_append.mp hj with h | h
    · obtain ⟨n, hn, -⟩ := hrefs j h
      exact hmFind?_isSome_iff.mp (by rw [hn]; rfl)
    · rw [List.mem_singleton] at h
      subst h
      obtain ⟨n, hn, -⟩ := htopid
      exact hmFind?_isSome_iff.mp (by rw [hn]; rfl)
  have htoplst : ∀ j ∈ lst ++ [id], st.topOk l j := by
    intro j hj
    rcases List.mem_append.mp hj with h | h
    · exact hrefs j h
    · rw [List.mem_singleton] at h
      subst h
      exact htopid
  have hre : Hnsw.linkOne id l st nid
      = (hmFind? st.nodes nid).bind (fun nnode =>
          (nnode.layers.get? l).bind (fun lst =>
            if (if l = 0 then st.m_max0 else st.m) < (lst ++ [id]).length then
              (pruneList st nnode.vector (lst ++ [id])
                  (if l = 0 then st.m_max0 else st.m)).bind (fun pruned =>
                (nnode.setLayer? l pruned).bind (fun nnode' =>
                  some { st with nodes := hmSet st.nodes nid nnode' }))
            else
              (nnode.setLayer? l (lst ++ [id])).bind (fun nnode' =>
                some { st with nodes := hmSet st.nodes nid nnode' }))) := rfl
  have hInvOf : ∀ new : List Nat,
      new.length ≤ (if l = 0 then st.m_max0 else st.m) →
      (∀ j ∈ new, st.topOk l j) →
      ({ st with nodes := (hmSet st.nodes nid
          { nnode with layers := nnode.layers.set l new }) } : Hnsw K).Inv := by
    intro new hbound hnew
    refine Inv_set hfind rfl rfl rfl rfl rfl rfl (by simp [List.length_set]) hinv ?_
    intro l' lst'' hg'
    by_cases hl' : l' = l
    · subst hl'
      rw [list_get?_set_self _ _ _ hlt] at hg'
      injection hg' with hg'
      subst hg'
      exact Or.inr ⟨hbound, hnew⟩
    · left
      rw [list_get?_set_ne _ _ _ _ (fun he => hl' he.symm)] at hg'
      exact hg'
  by_cases hbig : (if l = 0 then st.m_max0 else st.m) < (lst ++ [id]).length
  · obtain ⟨pr, hpr, hprlen, hprmem⟩ :=
      pruneList_spec nnode.vector (if l = 0 then st.m_max0 else st.m) hmemlst
    have hprbound : pr.length ≤ (if l = 0 then st.m_max0 else st.m) := by
      rw [hprlen]
      exact min_le_left _ _
    refine ⟨nnode, lst, pr,
      { st with nodes := (hmSet st.nodes nid
          { nnode with layers := nnode.layers.set l pr }) },
      hfind, hg, ?_, rfl, rfl, rfl, rfl, rfl, rfl,
      Or.inr ⟨hbig, hpr⟩,
      hInvOf pr hprbound (fun j hj => htoplst j (hprmem j hj))⟩
    rw [hre, hfind, Option.some_bind, hg, Option.some_bind, if_pos hbig, hpr,
      Option.some_bind]
    simp only [Node.setLayer?, if_pos hlt, Option.some_bind]
  · have hle : (lst ++ [id]).length ≤ (if l = 0 then st.m_max0 else st.m) :=
      Nat.le_of_not_lt hbig
    refine ⟨nnode, lst, lst ++ [id],
      { st with nodes := (hmSet st.nodes nid
          { nnode with layers := nnode.layers.set l (lst ++ [id]) }) },
      hfind, hg, ?_, rfl, rfl, rfl, rfl, rfl, rfl,
      Or.inl ⟨hle, rfl⟩,
      hInvOf (lst ++ [id]) hle htoplst⟩
    rw [hre, hfind, Option.some_bind, hg, Option.some_bind, if_neg hbig]
    simp only [Node.setLayer?, if_pos hlt, Option.some_bind]

theorem linkFold_spec {id l : Nat} :
    ∀ (neighbors : List Nat) (st : Hnsw K),
      st.Inv → neighbors.Nodup →
      (∀ j ∈ neighbors, st.topOk l j) → st.topOk l id →
      ∃ st', st.linkNeighbors id l neighbors = some st' ∧ st'.Inv ∧
        st'.nodes.map (·.1) = st.nodes.map (·.1) ∧
        st'.entry_point = st.entry_point ∧ st'.max_layers = st.max_layers ∧
        st'.m = st.m ∧ st'.m_max0 = st.m_max0 ∧
        st'.ef_construction = st.ef_construction ∧
        (∀ j n, hmFind? st.nodes j = some n →
          ∃ n', hmFind? st'.nodes j = some n' ∧ n'.id = n.id ∧
            n'.vector = n.vector ∧ n'.layers.length = n.layers.length ∧
            (j ∉ neighbors → n' = n) ∧
            (∀ l', l' ≠ l → n'.layers.get? l' = n.layers.get? l') ∧
            (n'.layers.get? l = n.layers.get? l ∨
              ∃ old new, n.layers.get? l = some old ∧
                n'.layers.get? l = some new ∧
                st'.backlinked id n.vector l old new)) := by
  intro neighbors
  induction neighbors with
  | nil =>
    intro st hinv _ _ _
    refine ⟨st, rfl, hinv, rfl, rfl, rfl, rfl, rfl, rfl, ?_⟩
    intro j n hjn
    exact ⟨n, hjn, rfl, rfl, rfl, fun _ => rfl, fun _ _ => rfl, Or.inl rfl⟩
  | cons nid rest ih =>
    intro st hinv hnd htop htopid
    obtain ⟨nnode, lst, new, st1, hfind, hg, hlink, hnodes1, hent1, hmax1, hm1,
      hmm1, hefc1, hbl, hinv1⟩ :=
      linkOne_spec hinv (htop nid (List.mem_cons_self _ _)) htopid
    have hlt : l < nnode.layers.length := by
      by_contra hc
      rw [List.get?_eq_none.mpr (by omega)] at hg
      cases hg
    have hsetlen : ({ nnode with layers := nnode.layers.set l new } : Node K).layers.length
        = nnode.layers.length := by simp [List.length_set]
    have htop1 : ∀ x, st.topOk l x → st1.topOk l x :=
      fun x hx => topOk_set hnodes1 hfind hsetlen hx
    have hpres01 : ∀ j n, hmFind? st.nodes j = some n →
        ∃ n', hmFind? st1.nodes j = some n' ∧ n'.id = n.id ∧
          n'.vector = n.vector ∧ n'.layers.length = n.layers.length := by
      intro j n hjn
      by_cases hjk : j = nid
      · subst hjk
        rw [hfind] at hjn
        injection hjn with hjn
        subst hjn
        refine ⟨{ nnode with layers := nnode.layers.set l new }, ?_, rfl, rfl, hsetlen⟩
        rw [hnodes1]
        exact hmFind?_hmSet_self _ (hmFind?_isSome_iff.mp (by rw [hfind]; rfl))
      · refine ⟨n, ?_, rfl, rfl, rfl⟩
        rw [hnodes1, hmFind?_hmSet_ne _ hjk]
        exact hjn
    obtain ⟨st2, hfold2, hinv2, hkeys2, hent2, hmax2, hm2, hmm2, hefc2, hpres12⟩ :=
      ih st1 hinv1 (List.nodup_cons.mp hnd).2
        (fun j hj => htop1 j (htop j (List.mem_cons_of_mem _ hj)))
        (htop1 id htopid)
    have hkeys1 : st1.nodes.map (·.1) = st.nodes.map (·.1) := by
      rw [hnodes1, hmSet_keys]
    have hpres02 : ∀ j n, hmFind? st.nodes j = some n →
        ∃ n', hmFind? st2.nodes j = some n' ∧ n'.id = n.id ∧
          n'.vector = n.vector ∧ n'.layers.length = n.layers.length := by
      intro j n hjn
      obtain ⟨n1, h1, hi1, hv1, hl1⟩ := hpres01 j n hjn
      obtain ⟨n2, h2, hi2, hv2, hl2, -, -, -⟩ := hpres12 j n1 h1
      exact ⟨n2, h2, hi2.trans hi1, hv2.trans hv1, hl2.trans hl1⟩
    have hvec02 : ∀ j, (hmFind? st2.nodes j).map (·.vector)
        = (hmFind? st.nodes j).map (·.vector) :=
      find_vecmap_eq (by rw [hkeys2, hkeys1])
        (fun j n hjn => by
          obtain ⟨n', h', -, hv', -⟩ := hpres02 j n hjn
          exact ⟨n', h', hv'⟩)
    have hblc : st2.backlinked id nnode.vector l lst new :=
      backlinked_congr (by rw [hm2, hm1]) (by rw [hmm2, hmm1]) hvec02 hbl
    refine ⟨st2, ?_, hinv2, by rw [hkeys2, hkeys1], by rw [hent2, hent1],
      by rw [hmax2, hmax1], by rw [hm2, hm1], by rw [hmm2, hmm1],
      by rw [hefc2, hefc1], ?_⟩
    · simp only [Hnsw.linkNeighbors, List.foldlM_cons]
      rw [hlink]
      exact hfold2
    · intro j n hjn
      by_cases hjk : j = nid
      · -- the node linked at this step; untouched by the rest of the fold
        subst hjk
        rw [hfind] at hjn
        injection hjn with hjn
        subst hjn
        have h1 : hmFind? st1.nodes j
            = some { nnode with layers := nnode.layers.set l new } := by
          rw [hnodes1]
          exact hmFind?_hmSet_self _ (hmFind?_isSome_iff.mp (by rw [hfind]; rfl))
        obtain ⟨n2, h2, hi2, hv2, hl2, hunch, -, -⟩ := hpres12 _ _ h1
        have hn2 : n2 = { nnode with layers := nnode.layers.set l new } :=
          hunch (List.nodup_cons.mp hnd).1
        subst hn2
        refine ⟨_, h2, hi2, hv2, by rw [hl2, hsetlen], ?_, ?_, ?_⟩
        · intro hc
          exact absurd (List.mem_cons_self _ _) hc
        · intro l' hl'
          exact list_get?_set_ne _ _ _ _ (fun he => hl' he.symm)
        · right
          exact ⟨lst, new, hg, list_get?_set_self _ _ _ hlt, hblc⟩
      · have h1 : hmFind? st1.nodes j = some n := by
          rw [hnodes1, hmFind?_hmSet_ne _ hjk]
          exact hjn
        obtain ⟨n', h', hi', hv', hl', hunch, hne', hat⟩ := hpres12 j n h1
        refine ⟨n', h', hi', hv', hl', ?_, hne', hat⟩
        intro hc
        exact hunch (fun hr => hc (List.mem_cons_of_mem _ hr))

theorem insertLayer_spec {st : Hnsw K} {id : Nat} {v : List K} {l ep : Nat}
    (hinv : st.Inv) (hep : st.topOk l ep)
    (hid : ∃ nd, hmFind? st.nodes id = some nd ∧ l < nd.layers.length) :
    ∃ st' ep', st.insertLayer id v l ep = some (st', ep') ∧ st'.Inv ∧
      st'.nodes.map (·.1) = st.nodes.map (·.1) ∧
      st'.entry_point = st.entry_point ∧ st'.max_layers = st.max_layers ∧
      st'.m = st.m ∧ st'.m_max0 = st.m_max0 ∧
      st'.ef_construction = st.ef_construction ∧
      (∀ l', l' < l → st'.topOk l' ep') ∧
      (∀ j n, hmFind? st.nodes j = some n →
        ∃ n', hmFind? st'.nodes j = some n' ∧ n'.id = n.id ∧
          n'.vector = n.vector ∧ n'.layers.length = n.layers.length ∧
          (j ≠ id → (∀ l', l' ≠ l → n'.layers.get? l' = n.layers.get? l') ∧
            (n'.layers.get? l = n.layers.get? l ∨
             ∃ old new, n.layers.get? l = some old ∧ n'.layers.get? l = some new ∧
               st'.backlinked id n.vector l old new))) := by
  obtain ⟨nd, hndfind, hndlt⟩ := hid
  have href : ∀ p ∈ st.nodes, ∀ l' lst, (p.2).layers.get? l' = some lst →
      ∀ j ∈ lst, st.topOk l' j :=
    fun p hp l' lst hg j hj => ((hinv.2.2.1 p hp).2.2 l' lst hg).2 j hj
  obtain ⟨cands, hsl, hcok, hcin, hcnd, hcpw, hcne⟩ :=
    search_layer_spec st.ef_construction href hep
  have hnbnd : (selectNeighbors cands st.m).Nodup := by
    unfold selectNeighbors
    rw [List.map_take, List.map_reverse]
    exact List.Sublist.nodup (List.take_sublist _ _) (List.nodup_reverse.mpr hcnd)
  have hnbtop : ∀ j ∈ selectNeighbors cands st.m, st.topOk l j := by
    intro j hj
    obtain ⟨c, hc, hcid⟩ := selectNeighbors_mem hj
    obtain ⟨n, hn, hd, hlt⟩ := hcok c hc
    exact ⟨n, hcid ▸ hn, hlt⟩
  have hset : nd.setLayer? l (selectNeighbors cands st.m)
      = some { nd with layers := nd.layers.set l (selectNeighbors cands st.m) } := by
    simp [Node.setLayer?, hndlt]
  have hsetlen1 :
      ({ nd with layers := nd.layers.set l (selectNeighbors cands st.m) }
        : Node K).layers.length = nd.layers.length := by
    simp [List.length_set]
  have hinv1 : ({ st with nodes := (hmSet st.nodes id
      { nd with layers := nd.layers.set l (selectNeighbors cands st.m) }) }
        : Hnsw K).Inv := by
    refine Inv_set hndfind rfl rfl rfl rfl rfl rfl hsetlen1 hinv ?_
    intro l' lst' hg'
    by_cases hl' : l' = l
    · subst hl'
      rw [list_get?_set_self _ _ _ hndlt] at hg'
      injection hg' with hg'
      subst hg'
      right
      constructor
      · refine le_trans (selectNeighbors_length _ _) ?_
        by_cases h0 : l' = 0
        · rw [if_pos h0]; exact hinv.2.1
        · rw [if_neg h0]
      · exact hnbtop
    · left
      rw [list_get?_set_ne _ _ _ _ (fun he => hl' he.symm)] at hg'
      exact hg'
  have htop1 : ∀ x l'', st.topOk l'' x →
      ({ st with nodes := (hmSet st.nodes id
        { nd with layers := nd.layers.set l (selectNeighbors cands st.m) }) }
          : Hnsw K).topOk l'' x :=
    fun x l'' hx => topOk_set rfl hndfind hsetlen1 hx
  have hidmem : id ∈ st.nodes.map (·.1) :=
    hmFind?_isSome_iff.mp (by rw [hndfind]; rfl)
  have hfind1 : hmFind? (hmSet st.nodes id
      { nd with layers := nd.layers.set l (selectNeighbors cands st.m) }) id
      = some { nd with layers := nd.layers.set l (selectNeighbors cands st.m) } :=
    hmFind?_hmSet_self _ hidmem
  have htopid1 : ({ st with nodes := (hmSet st.nodes id
      { nd with layers := nd.layers.set l (selectNeighbors cands st.m) }) }
        : Hnsw K).topOk l id :=
    ⟨_, hfind1, by rw [hsetlen1]; exact hndlt⟩
  obtain ⟨st2, hfold, hinv2, hkeys2, hent2, hmax2, hm2, hmm2, hefc2, hpres12⟩ :=
    linkFold_spec (selectNeighbors cands st.m)
      ({ st with nodes := (hmSet st.nodes id
        { nd with layers := nd.layers.set l (selectNeighbors cands st.m) }) })
      hinv1 hnbnd (fun j hj => htop1 _ _ (hnbtop j hj)) htopid1
  have htop2 : ∀ x l'',
      ({ st with nodes := (hmSet st.nodes id
        { nd with layers := nd.layers.set l (selectNeighbors cands st.m) }) }
          : Hnsw K).topOk l'' x → st2.topOk l'' x := by
    intro x l'' hx
    obtain ⟨n1, hn1, hlt1⟩ := hx
    obtain ⟨n2, hn2, -, -, hl2, -, -, -⟩ := hpres12 _ _ hn1
    exact ⟨n2, hn2, by rw [hl2]; exact hlt1⟩
  refine ⟨st2, (match listMinBy cands with
      | some best => best.id
      | none => ep), ?_, hinv2,
    by rw [hkeys2, hmSet_keys], hent2, hmax2, hm2, hmm2, hefc2, ?_, ?_⟩
  · have hre : st.insertLayer id v l ep
        = (st.search_layer v ep st.ef_construction l).bind (fun candidates =>
            (hmFind? st.nodes id).bind (fun nnode =>
              (nnode.setLayer? l (selectNeighbors candidates st.m)).bind
                (fun nnode' =>
                  (({ st with nodes := hmSet st.nodes id nnode' } : Hnsw K)
                      |>.linkNeighbors id l (selectNeighbors candidates st.m)).bind
                    (fun s2 =>
                      some (s2, match listMinBy candidates with
                                | some best => best.id
                                | none => ep))))) := rfl
    rw [hre, hsl, Option.some_bind, hndfind, Option.some_bind, hset,
      Option.some_bind, hfold, Option.some_bind]
  · intro l' hl'
    cases hmin : listMinBy cands with
    | some best =>
      obtain ⟨n, hn, hd, hlt⟩ := hcok best (listMinBy_mem hmin)
      exact htop2 _ _ (htop1 _ _ ⟨n, hn, lt_trans hl' hlt⟩)
    | none =>
      obtain ⟨n, hn, hlt⟩ := hep
      exact htop2 _ _ (htop1 _ _ ⟨n, hn, lt_trans hl' hlt⟩)
  · intro j n hjn
    by_cases hjk : j = id
    · subst hjk
      rw [hndfind] at hjn
      injection hjn with hjn
      subst hjn
      obtain ⟨n2, hn2, hi2, hv2, hl2, -, -, -⟩ := hpres12 _ _ hfind1
      refine ⟨n2, hn2, hi2, hv2, by rw [hl2, hsetlen1], ?_⟩
      intro hc
      exact absurd rfl hc
    · have h1 : hmFind?
          (hmSet st.nodes id
            { nd with layers := nd.layers.set l (selectNeighbors cands st.m) }) j
          = some n := by
        rw [hmFind?_hmSet_ne _ hjk]
        exact hjn
      obtain ⟨n', h', hi', hv', hl', -, hne', hat⟩ := hpres12 j n h1
      exact ⟨n', h', hi', hv', hl', fun _ => ⟨hne', hat⟩⟩

theorem insertPhase2_spec (id : Nat) (v : List K) :
    ∀ (ls : List Nat) (st : Hnsw K) (ep : Nat),
      st.Inv → ls.Pairwise (· > ·) →
      (∀ l ∈ ls, ∃ nd, hmFind? st.nodes id = some nd ∧ l < nd.layers.length) →
      (∀ l ∈ ls, st.topOk l ep) →
      ∃ st' ep', ls.foldlM
          (fun (p : Hnsw K × Nat) l => p.1.insertLayer id v l p.2) (st, ep)
          = some (st', ep') ∧
        st'.Inv ∧ st'.nodes.map (·.1) = st.nodes.map (·.1) ∧
        st'.entry_point = st.entry_point ∧ st'.max_layers = st.max_layers ∧
        st'.m = st.m ∧ st'.m_max0 = st.m_max0 ∧
        st'.ef_construction = st.ef_construction ∧
        (∀ j n, hmFind? st.nodes j = some n →
          ∃ n', hmFind? st'.nodes j = some n' ∧ n'.id = n.id ∧
            n'.vector = n.vector ∧ n'.layers.length = n.layers.length ∧
            (j ≠ id → ∀ l, n'.layers.get? l = n.layers.get? l ∨
              (l ∈ ls ∧ ∃ old new, n.layers.get? l = some old ∧
                n'.layers.get? l = some new ∧
                st'.backlinked id n.vector l old new))) := by
  intro ls
  induction ls with
  | nil =>
    intro st ep hinv _ _ _
    refine ⟨st, ep, rfl, hinv, rfl, rfl, rfl, rfl, rfl, rfl, ?_⟩
    intro j n hjn
    exact ⟨n, hjn, rfl, rfl, rfl, fun _ l => Or.inl rfl⟩
  | cons l0 rest ih =>
    intro st ep hinv hpw hid htop
    obtain ⟨st1, ep1, hstep, hinv1, hkeys1, hent1, hmax1, hm1, hmm1, hefc1,
      htopep1, hpres1⟩ :=
      insertLayer_spec (v := v) hinv (htop l0 (List.mem_cons_self _ _))
        (hid l0 (List.mem_cons_self _ _))
    have hgt : ∀ x ∈ rest, l0 > x := (List.pairwise_cons.mp hpw).1
    have hid1 : ∀ l ∈ rest, ∃ nd, hmFind? st1.nodes id = some nd ∧
        l < nd.layers.length := by
      intro l hl
      obtain ⟨nd, hnd, hlt⟩ := hid l (List.mem_cons_of_mem _ hl)
      obtain ⟨nd', hnd', -, -, hl', -⟩ := hpres1 id nd hnd
      exact ⟨nd', hnd', by rw [hl']; exact hlt⟩
    have htop1 : ∀ l ∈ rest, st1.topOk l ep1 := fun l hl => htopep1 l (hgt l hl)
    obtain ⟨st2, ep2, hfold, hinv2, hkeys2, hent2, hmax2, hm2, hmm2, hefc2,
      hpres2⟩ := ih st1 ep1 hinv1 (List.pairwise_cons.mp hpw).2 hid1 htop1
    have hvec12 : ∀ j, (hmFind? st2.nodes j).map (·.vector)
        = (hmFind? st1.nodes j).map (·.vector) :=
      find_vecmap_eq hkeys2 (fun j n hjn => by
        obtain ⟨n', h', -, hv', -, -⟩ := hpres2 j n hjn
        exact ⟨n', h', hv'⟩)
    refine ⟨st2, ep2, ?_, hinv2, by rw [hkeys2, hkeys1], by rw [hent2, hent1],
      by rw [hmax2, hmax1], by rw [hm2, hm1], by rw [hmm2, hmm1],
      by rw [hefc2, hefc1], ?_⟩
    · rw [List.foldlM_cons, hstep]
      exact hfold
    · intro j n hjn
      obtain ⟨n1, h1, hi1, hv1, hl1, hframe1⟩ := hpres1 j n hjn
      obtain ⟨n2, h2, hi2, hv2, hl2, hframe2⟩ := hpres2 j n1 h1
      refine ⟨n2, h2, hi2.trans hi1, hv2.trans hv1, hl2.trans hl1, ?_⟩
      intro hjid l
      obtain ⟨hne1, hat1⟩ := hframe1 hjid
      have hf2 := hframe2 hjid
      by_cases hll : l = l0
      · subst hll
        have hl0nr : l ∉ rest := fun hc => absurd (hgt l hc) (lt_irrefl _)
        have h2eq : n2.layers.get? l = n1.layers.get? l := by
          rcases hf2 l with h | ⟨hmem, -⟩
          · exact h
          · exact absurd hmem hl0nr
        rcases hat1 with h | ⟨old, new, hold, hnew, hbl⟩
        · exact Or.inl (by rw [h2eq, h])
        · right
          refine ⟨List.mem_cons_self _ _, old, new, hold,
            by rw [h2eq, hnew], ?_⟩
          exact backlinked_congr hm2 hmm2 hvec12 hbl
      · have h1eq : n1.layers.get? l = n.layers.get? l := hne1 l hll
        rcases hf2 l with h | ⟨hmem, old, new, hold, hnew, hbl⟩
        · exact Or.inl (by rw [h, h1eq])
        · right
          refine ⟨List.mem_cons_of_mem _ hmem, old, new,
            by rw [← h1eq]; exact hold, hnew, ?_⟩
          rw [← hv1]
          exact hbl

theorem get?_replicate {A : Type} (a : A) (n m : Nat) :
    (List.replicate n a).get? m = if m < n then some a else none := by
  rw [List.get?_eq_getElem?]
  simp [List.getElem?_replicate]

set_option maxHeartbeats 1000000 in
theorem insert_spec {self : Hnsw K} (id : Nat) (v : List K) (level : Nat)
    (hinv : self.Inv) (hfresh : id ∉ self.nodes.map (·.1)) :
    ∃ I, self.insert id v level = some I ∧ I.Inv ∧
      I.m = self.m ∧ I.m_max0 = self.m_max0 ∧
      I.ef_construction = self.ef_construction ∧
      I.nodes.map (·.1) = self.nodes.map (·.1) ++ [id] ∧
      (∃ nd, hmFind? I.nodes id = some nd ∧ nd.id = id ∧ nd.vector = v) ∧
      (∀ j n, j ≠ id → hmFind? self.nodes j = some n →
        ∃ n', hmFind? I.nodes j = some n' ∧ n'.id = n.id ∧ n'.vector = n.vector ∧
          n'.layers.length = n.layers.length ∧
          ∀ l, n'.layers.get? l = n.layers.get? l ∨
            ∃ old new, n.layers.get? l = some old ∧ n'.layers.get? l = some new ∧
              id ∉ old ∧ I.backlinked id n.vector l old new) := by
  obtain ⟨hnd0, hmle0, hpn0, hentry0⟩ := hinv
  cases hent : self.entry_point with
  | none =>
    have hnil : self.nodes = [] := by
      rw [hent] at hentry0
      exact hentry0
    refine ⟨{ nodes := [(id, ⟨id, v, List.replicate (level + 1) []⟩)],
              entry_point := some id, max_layers := level,
              ef_construction := self.ef_construction, m := self.m,
              m_max0 := self.m_max0 }, ?_, ?_, rfl, rfl, rfl, ?_, ?_, ?_⟩
    · simp only [Hnsw.insert, hent]
      rw [hnil]
      rfl
    · refine ⟨by simp, hmle0, ?_, ?_⟩
      · intro p hp
        rw [List.mem_singleton] at hp
        subst hp
        refine ⟨rfl, by simp, ?_⟩
        intro l lst hg
        simp only [get?_replicate] at hg
        by_cases hl : l < level + 1
        · rw [if_pos hl] at hg
          injection hg with hg
          subst hg
          exact ⟨by simp, by simp⟩
        · rw [if_neg hl] at hg
          cases hg
      · exact ⟨(⟨id, v, List.replicate (level + 1) []⟩ : Node K),
          by simp [hmFind?, List.find?], by simp⟩
    · rw [hnil]; rfl
    · exact ⟨(⟨id, v, List.replicate (level + 1) []⟩ : Node K),
        by simp [hmFind?, List.find?], rfl, rfl⟩
    · intro j n _ hjn
      rw [hnil] at hjn
      cases hjn
  | some e =>
    -- the freshly inserted node and the post-insertion state
    have hfilter : self.nodes.filter (fun p => p.1 != id) = self.nodes := by
      apply List.filter_eq_self.mpr
      intro p hp
      simpa using fun he : p.1 = id =>
        hfresh (he ▸ List.mem_map_of_mem (·.1) hp)
    have hins : hmInsert self.nodes id ⟨id, v, List.replicate (level + 1) []⟩
        = self.nodes ++ [(id, ⟨id, v, List.replicate (level + 1) []⟩)] := by
      unfold hmInsert
      rw [hfilter]
    have hkeysins : (hmInsert self.nodes id
        ⟨id, v, List.replicate (level + 1) []⟩).map (·.1)
        = self.nodes.map (·.1) ++ [id] :=
      hmInsert_keys_fresh _ _ _ hfresh
    rw [hent] at hentry0
    obtain ⟨en, hene, henl⟩ := hentry0
    have hemem : e ∈ self.nodes.map (·.1) :=
      hmFind?_isSome_iff.mp (by rw [hene]; rfl)
    have heid : e ≠ id := fun he => hfresh (he ▸ hemem)
    have hfind1id : hmFind? (hmInsert self.nodes id
        ⟨id, v, List.replicate (level + 1) []⟩) id
        = some ⟨id, v, List.replicate (level + 1) []⟩ :=
      hmFind?_hmInsert_self _ _ _
    have hfindold : ∀ j, j ≠ id →
        hmFind? (hmInsert self.nodes id
          ⟨id, v, List.replicate (level + 1) []⟩) j = hmFind? self.nodes j :=
      fun j hj => hmFind?_hmInsert_ne _ _ _ hj
    have htopins : ∀ l' j,
        self.topOk l' j →
        Hnsw.topOk { self with nodes := (hmInsert self.nodes id
          ⟨id, v, List.replicate (level + 1) []⟩) } l' j := by
      intro l' j hx
      obtain ⟨n, hn, hlt⟩ := hx
      have hji : j ≠ id :=
        fun he => hfresh (he ▸ hmFind?_isSome_iff.mp (by rw [hn]; rfl))
      exact ⟨n, by rw [hfindold j hji]; exact hn, hlt⟩
    have hinv1 : ({ self with nodes := (hmInsert self.nodes id
        ⟨id, v, List.replicate (level + 1) []⟩) } : Hnsw K).Inv := by
      refine ⟨?_, hmle0, ?_, ?_⟩
      · rw [hkeysins]
        rw [List.nodup_append]
        exact ⟨hnd0, List.nodup_singleton _,
          fun a ha hb => hfresh (by rw [List.mem_singleton] at hb; exact hb ▸ ha)⟩
      · intro p hp
        rw [hins] at hp
        rcases List.mem_append.mp hp with hp | hp
        · obtain ⟨h1, h2, h3⟩ := hpn0 p hp
          refine ⟨h1, h2, ?_⟩
          intro l lst hg
          obtain ⟨hb, ht⟩ := h3 l lst hg
          exact ⟨hb, fun j hj => htopins l j (ht j hj)⟩
        · rw [List.mem_singleton] at hp
          subst hp
          refine ⟨rfl, by simp, ?_⟩
          intro l lst hg
          simp only [get?_replicate] at hg
          by_cases hl : l < level + 1
          · rw [if_pos hl] at hg
            injection hg with hg
            subst hg
            exact ⟨by simp, by simp⟩
          · rw [if_neg hl] at hg
            cases hg
      · simp only [hent]
        exact ⟨en, by rw [hfindold e heid]; exact hene, henl⟩
    have hfind1e : hmFind? (hmInsert self.nodes id
        ⟨id, v, List.replicate (level + 1) []⟩) e = some en := by
      rw [hfindold e heid]
      exact hene
    have href1 : ∀ p ∈ ({ self with nodes := (hmInsert self.nodes id
        ⟨id, v, List.replicate (level + 1) []⟩) } : Hnsw K).nodes,
        ∀ l' lst, (p.2).layers.get? l' = some lst →
          ∀ j ∈ lst, Hnsw.topOk { self with nodes := (hmInsert self.nodes id
            ⟨id, v, List.replicate (level + 1) []⟩) } l' j :=
      fun p hp l' lst hg j hj => ((hinv1.2.2.1 p hp).2.2 l' lst hg).2 j hj
    obtain ⟨ep1, d1, hdesc, hepok1, hor1, -⟩ :=
      greedyDescent_spec (q := v) href1
        ((List.range' (level + 1) (self.max_layers - level)).reverse) e
        (dist v en.vector) ⟨en, hfind1e, rfl⟩
    -- the entry of phase 2 participates in every processed layer
    have htopep : ∀ l ∈ (List.range (min level self.max_layers + 1)).reverse,
        Hnsw.topOk { self with nodes := (hmInsert self.nodes id
          ⟨id, v, List.replicate (level + 1) []⟩) } l ep1 := by
      intro l hl
      rw [List.mem_reverse, List.mem_range] at hl
      have hlle : l ≤ min level self.max_layers := by omega
      rcases hor1 with he1 | ⟨l', hl', htl'⟩
      · subst he1
        refine ⟨en, hfind1e, ?_⟩
        rw [henl]
        have := min_le_right level self.max_layers
        omega
      · rw [List.mem_reverse, List.mem_range'_1] at hl'
        refine topOk_mono ?_ htl'
        have := min_le_left level self.max_layers
        omega
    have hpw2 : ((List.range (min level self.max_layers + 1)).reverse).Pairwise
        (· > ·) :=
      List.pairwise_reverse.mpr (List.pairwise_lt_range _)
    have hid2 : ∀ l ∈ (List.range (min level self.max_layers + 1)).reverse,
        ∃ nd, hmFind? (hmInsert self.nodes id
          ⟨id, v, List.replicate (level + 1) []⟩) id = some nd ∧
          l < nd.layers.length := by
      intro l hl
      rw [List.mem_reverse, List.mem_range] at hl
      refine ⟨_, hfind1id, ?_⟩
      simp only [List.length_replicate]
      have := min_le_left level self.max_layers
      omega
    obtain ⟨st2, ep2, hfold, hinv2, hkeys2, hent2, hmax2, hm2, hmm2, hefc2,
      hpres2⟩ :=
      insertPhase2_spec id v
        ((List.range (min level self.max_layers + 1)).reverse)
        ({ self with nodes := (hmInsert self.nodes id
          ⟨id, v, List.replicate (level + 1) []⟩) }) ep1 hinv1 hpw2 hid2 htopep
    obtain ⟨nd2, hnd2, hnd2id, hnd2vec, hnd2len, -⟩ := hpres2 id _ hfind1id
    have hkeys2' : st2.nodes.map (·.1) = self.nodes.map (·.1) ++ [id] := by
      rw [hkeys2]
      exact hkeysins
    have hframe : ∀ j n, j ≠ id → hmFind? self.nodes j = some n →
        ∃ n', hmFind? st2.nodes j = some n' ∧ n'.id = n.id ∧
          n'.vector = n.vector ∧ n'.layers.length = n.layers.length ∧
          ∀ l, n'.layers.get? l = n.layers.get? l ∨
            ∃ old new, n.layers.get? l = some old ∧ n'.layers.get? l = some new ∧
              id ∉ old ∧ st2.backlinked id n.vector l old new := by
      intro j n hjid hjn
      have h1 : hmFind? (hmInsert self.nodes id
          ⟨id, v, List.replicate (level + 1) []⟩) j = some n := by
        rw [hfindold j hjid]
        exact hjn
      obtain ⟨n', h', hi', hv', hl', hat⟩ := hpres2 j n h1
      refine ⟨n', h', hi', hv', hl', ?_⟩
      intro l
      rcases hat hjid l with h | ⟨-, old, new, hold, hnew, hbl⟩
      · exact Or.inl h
      · right
        refine ⟨old, new, hold, hnew, ?_, hbl⟩
        intro hc
        obtain ⟨nx, hnx, -⟩ := ((hpn0 (j, n) (hmFind?_mem hjn)).2.2 l old hold).2
          id hc
        exact hfresh (hmFind?_isSome_iff.mp (by rw [hnx]; rfl))
    by_cases hcmp : self.max_layers < level
    · refine ⟨{ st2 with max_layers := level, entry_point := some id },
        ?_, ?_, hm2, hmm2, hefc2, hkeys2', ⟨nd2, hnd2, hnd2id, hnd2vec⟩, ?_⟩
      · rw [hent] at hdesc hfold
        simp only [Hnsw.insert, hent, hfind1e, hdesc, hfold, Option.pure_def,
          Option.bind_eq_bind, Option.some_bind, if_pos hcmp]
      · obtain ⟨h1, h2, h3, -⟩ := hinv2
        refine ⟨h1, h2, h3, ?_⟩
        exact ⟨nd2, hnd2, by rw [hnd2len]; simp⟩
      · intro j n hjid hjn
        obtain ⟨n', h', hi', hv', hl', hat⟩ := hframe j n hjid hjn
        exact ⟨n', h', hi', hv', hl', hat⟩
    · refine ⟨st2, ?_, hinv2, hm2, hmm2, hefc2, hkeys2',
        ⟨nd2, hnd2, hnd2id, hnd2vec⟩, hframe⟩
      rw [hent] at hdesc hfold
      simp only [Hnsw.insert, hent, hfind1e, hdesc, hfold, Option.pure_def,
        Option.bind_eq_bind, Option.some_bind, if_neg hcmp]

omit [LinearOrderedCommRing K] in
theorem new_inv (m efc : Nat) : (Hnsw.new K m efc).Inv := by
  refine ⟨by simp [Hnsw.new], by simp [Hnsw.new]; omega, ?_, ?_⟩
  · intro p hp
    simp [Hnsw.new] at hp
  · simp [Hnsw.new]

theorem build_fold :
    ∀ (ops : List (Nat × List K × Nat)) (s : Hnsw K),
      s.Inv → (ops.map (·.1)).Nodup →
      (∀ i ∈ ops.map (·.1), i ∉ s.nodes.map (·.1)) →
      ∃ I, ops.foldlM (fun h op => h.insert op.1 op.2.1 op.2.2) s = some I ∧
        I.Inv ∧ I.m = s.m ∧ I.m_max0 = s.m_max0 ∧
        I.ef_construction = s.ef_construction ∧
        I.nodes.map (·.1) = s.nodes.map (·.1) ++ ops.map (·.1) := by
  intro ops
  induction ops with
  | nil =>
    intro s hinv _ _
    exact ⟨s, rfl, hinv, rfl, rfl, rfl, by simp⟩
  | cons op rest ih =>
    intro s hinv hnd hdisj
    obtain ⟨s1, hstep, hinv1, hm1, hmm1, hefc1, hkeys1, -, -⟩ :=
      insert_spec op.1 op.2.1 op.2.2 hinv (hdisj op.1 (by simp))
    obtain ⟨I, hfold, hinvI, hmI, hmmI, hefcI, hkeysI⟩ := ih s1 hinv1
      (by rw [List.map_cons] at hnd; exact (List.nodup_cons.mp hnd).2)
      (by
        intro i hi
        rw [hkeys1]
        intro hc
        rcases List.mem_append.mp hc with h | h
        · exact hdisj i (by rw [List.map_cons]; exact List.mem_cons_of_mem _ hi) h
        · rw [List.mem_singleton] at h
          rw [List.map_cons] at hnd
          exact (List.nodup_cons.mp hnd).1 (h ▸ hi))
    refine ⟨I, ?_, hinvI, hmI.trans hm1, hmmI.trans hmm1, hefcI.trans hefc1, ?_⟩
    · rw [List.foldlM_cons, hstep]
      exact hfold
    · rw [hkeysI, hkeys1, List.map_cons]
      simp

theorem build_spec {m efc : Nat} (ops : List (Nat × List K × Nat))
    (hnd : (ops.map (·.1)).Nodup) :
    ∃ I, Hnsw.build m efc ops = some I ∧ I.Inv ∧ I.m = m ∧ I.m_max0 = m * 2 ∧
      I.ef_construction = efc ∧ I.nodes.map (·.1) = ops.map (·.1) := by
  obtain ⟨I, hfold, hinv, hm, hmm, hefc, hkeys⟩ :=
    build_fold ops (Hnsw.new K m efc) (new_inv m efc) hnd
      (by intro i _ hc; simp [Hnsw.new] at hc)
  exact ⟨I, hfold, hinv, hm, hmm, hefc, by simpa [Hnsw.new] using hkeys⟩

theorem search_spec {self : Hnsw K} (hinv : self.Inv) (q : List K) (k : Nat) :
    ∃ r, self.search q k = some r ∧
      (r.map (·.1)).Nodup ∧
      (∀ pr ∈ r, ∃ n, hmFind? self.nodes pr.1 = some n ∧ pr.2 = dist q n.vector) ∧
      r.Pairwise (fun a b : Nat × K => a.2 ≤ b.2) ∧
      r.length ≤ self.nodes.length := by
  cases hent : self.entry_point with
  | none =>
    exact ⟨[], by simp [Hnsw.search, hent], by simp, by simp, by simp, by simp⟩
  | some e =>
    obtain ⟨hnd0, hmle0, hpn0, hentry0⟩ := hinv
    rw [hent] at hentry0
    obtain ⟨en, hene, henl⟩ := hentry0
    have href : ∀ p ∈ self.nodes, ∀ l' lst, (p.2).layers.get? l' = some lst →
        ∀ j ∈ lst, self.topOk l' j :=
      fun p hp l' lst hg j hj => ((hpn0 p hp).2.2 l' lst hg).2 j hj
    obtain ⟨ep1, d1, hdesc, hepok1, -, -⟩ :=
      greedyDescent_spec (q := q) href ((List.range' 1 self.max_layers).reverse) e
        (dist q en.vector) ⟨en, hene, rfl⟩
    obtain ⟨n1, hn1, -⟩ := hepok1
    have htop0 : self.topOk 0 ep1 :=
      ⟨n1, hn1, (hpn0 (ep1, n1) (hmFind?_mem hn1)).2.1⟩
    obtain ⟨cands, hsl, hcok, hcin, hcnd, hcpw, hcne⟩ :=
      search_layer_spec (q := q) (max self.ef_construction k) href htop0
    refine ⟨((cands.map (fun c => (c.id, c.distance))).reverse).take k,
      ?_, ?_, ?_, ?_, ?_⟩
    · simp only [Hnsw.search, hent, hene, hdesc, hsl, Option.pure_def,
        Option.bind_eq_bind, Option.some_bind]
    · have hmap : ((((cands.map (fun c => (c.id, c.distance))).reverse).take k).map
          (·.1)) = ((cands.map (·.id)).reverse).take k := by
        rw [List.map_take, List.map_reverse, List.map_map]
        rfl
      rw [hmap]
      exact List.Sublist.nodup (List.take_sublist _ _)
        (List.nodup_reverse.mpr hcnd)
    · intro pr hpr
      have h1 := List.mem_reverse.mp (List.mem_of_mem_take hpr)
      obtain ⟨c, hc, hcpr⟩ := List.mem_map.mp h1
      obtain ⟨n, hn, hd, -⟩ := hcok c hc
      subst hcpr
      exact ⟨n, hn, hd⟩
    · have h1 : ((cands.map (fun c => (c.id, c.distance))).reverse).Pairwise
          (fun a b : Nat × K => a.2 ≤ b.2) := by
        rw [List.pairwise_reverse, List.pairwise_map]
        exact hcpw
      exact List.Pairwise.sublist (List.take_sublist _ _) h1
    · have hclen : cands.length ≤ self.nodes.length := by
        have h1 : (cands.map (·.id)).length ≤ (self.nodes.map (·.1)).length := by
          apply nodup_sub_length hcnd
          intro x hx
          obtain ⟨c, hc, hcx⟩ := List.mem_map.mp hx
          exact hcx ▸ hcin c hc
        simpa [List.length_map] using h1
      simp only [List.length_take, List.length_reverse, List.length_map]
      omega

end HnswInsertSpec

/-! ## HNSW: claim theorems -/

section HnswClaims

variable {K : Type} [LinearOrderedCommRing K]

/-- C3.  Degree-bound invariant: an index built from `Hnsw::new(m, efc)`
by any sequence of inserts with distinct ids has `m_max0 = 2·m`, and
every node's layer-`l` adjacency list has length at most `m_max0` at
layer 0 and at most `m` at any higher layer. -/
theorem degree_bound (m efc : Nat) (ops : List (Nat × List K × Nat))
    (hnd : (ops.map (·.1)).Nodup) :
    ∃ I, Hnsw.build m efc ops = some I ∧ I.m = m ∧ I.m_max0 = 2 * m ∧
      ∀ p ∈ I.nodes, ∀ l lst, (p.2).layers.get? l = some lst →
        lst.length ≤ if l = 0 then I.m_max0 else I.m := by
  obtain ⟨I, hb, hinv, hm, hmm, -, -⟩ := build_spec ops hnd
  exact ⟨I, hb, hm, by rw [hmm]; exact Nat.mul_comm m 2,
    fun p hp l lst hg => ((hinv.2.2.1 p hp).2.2 l lst hg).1⟩

/-- Witness for C3: the six-insert build `exMissOps` with `M = 2`. -/
theorem degree_bound_witness :
    ∃ I, Hnsw.build 2 1 exMissOps = some I ∧ I.m = 2 ∧ I.m_max0 = 2 * 2 ∧
      ∀ p ∈ I.nodes, ∀ l lst, (p.2).layers.get? l = some lst →
        lst.length ≤ if l = 0 then I.m_max0 else I.m :=
  degree_bound 2 1 exMissOps (by decide)

/-- C4.  Adjacency referential invariant: after any sequence of inserts
with distinct ids starting from `Hnsw::new`, the build succeeds, every
id in any layer-`l` adjacency list names a stored node that participates
in layer `l`, and `search` never panics (returns `some`) on any query. -/
theorem adjacency_closed (m efc : Nat) (ops : List (Nat × List K × Nat))
    (hnd : (ops.map (·.1)).Nodup) :
    ∃ I, Hnsw.build m efc ops = some I ∧
      (∀ p ∈ I.nodes, ∀ l lst, (p.2).layers.get? l = some lst → ∀ j ∈ lst,
        ∃ n, hmFind? I.nodes j = some n ∧ l < n.layers.length) ∧
      (∀ q k', (I.search q k').isSome) := by
  obtain ⟨I, hb, hinv, -, -, -, -⟩ := build_spec ops hnd
  refine ⟨I, hb, ?_, ?_⟩
  · intro p hp l lst hg j hj
    exact ((hinv.2.2.1 p hp).2.2 l lst hg).2 j hj
  · intro q k'
    obtain ⟨r, hr, -⟩ := search_spec hinv q k'
    rw [hr]
    rfl

/-- Witness for C4: the six-insert build `exMissOps`. -/
theorem adjacency_closed_witness :
    ∃ I, Hnsw.build 2 1 exMissOps = some I ∧
      (∀ p ∈ I.nodes, ∀ l lst, (p.2).layers.get? l = some lst → ∀ j ∈ lst,
        ∃ n, hmFind? I.nodes j = some n ∧ l < n.layers.length) ∧
      (∀ q k', (I.search q k').isSome) :=
  adjacency_closed 2 1 exMissOps (by decide)

theorem exOne_inv : exOne.Inv := by
  refine ⟨by decide, by decide, ?_, ?_⟩
  · intro p hp
    rw [show exOne.nodes = [(5, ⟨5, [0], [[]]⟩)] from rfl, List.mem_singleton] at hp
    subst hp
    refine ⟨rfl, by decide, ?_⟩
    intro l lst hg
    cases l with
    | zero =>
      injection hg with hg
      subst hg
      exact ⟨Nat.zero_le _, fun j hj => absurd hj (List.not_mem_nil j)⟩
    | succ n => cases hg
  · exact ⟨⟨5, [0], [[]]⟩, rfl, rfl⟩

/-- C10.  Insert frame effect: inserting a fresh id into an index
satisfying the insert invariant leaves every pre-existing node's id and
vector unchanged, and rewrites a pre-existing node's layer-`l` adjacency
list only by the back-link shape: the new id is appended, and the list
is replaced by the pruning block's output when it then exceeds `m_max`;
every other adjacency list is unchanged. -/
theorem insert_frame {self : Hnsw K} {id : Nat} {v : List K} {level : Nat}
    (hinv : self.Inv) (hfresh : id ∉ self.nodes.map (·.1)) :
    ∃ I, self.insert id v level = some I ∧
      ∀ j n, j ≠ id → hmFind? self.nodes j = some n →
        ∃ n', hmFind? I.nodes j = some n' ∧ n'.id = n.id ∧
          n'.vector = n.vector ∧ n'.layers.length = n.layers.length ∧
          ∀ l, n'.layers.get? l = n.layers.get? l ∨
            ∃ old new, n.layers.get? l = some old ∧
              n'.layers.get? l = some new ∧
              id ∉ old ∧ I.backlinked id n.vector l old new := by
  obtain ⟨I, heq, -, -, -, -, -, -, hframe⟩ := insert_spec id v level hinv hfresh
  exact ⟨I, heq, hframe⟩

/-- Witness for C10: inserting id 7 into the one-node index `exOne`. -/
theorem insert_frame_witness :
    ∃ I, exOne.insert 7 [3] 0 = some I ∧
      ∀ j n, j ≠ 7 → hmFind? exOne.nodes j = some n →
        ∃ n', hmFind? I.nodes j = some n' ∧ n'.id = n.id ∧
          n'.vector = n.vector ∧ n'.layers.length = n.layers.length ∧
          ∀ l, n'.layers.get? l = n.layers.get? l ∨
            ∃ old new, n.layers.get? l = some old ∧
              n'.layers.get? l = some new ∧
              7 ∉ old ∧ I.backlinked 7 n.vector l old new :=
  insert_frame exOne_inv (by decide)

theorem dist_self (v : List K) : dist v v = 0 := by
  induction v with
  | nil => rfl
  | cons x xs ih =>
    show (x - x) * (x - x) + dist xs xs = 0
    rw [ih, sub_self]
    ring

theorem greedyDescent_empty (self : Hnsw K) {q : List K} {ep : Nat} {n : Node K}
    (hfind : hmFind? self.nodes ep = some n)
    (hemp : ∀ l, n.layers.get? l = some [] ∨ n.layers.get? l = none) :
    ∀ (ls : List Nat) (d : K), self.greedyDescent q ls ep d = some (ep, d) := by
  intro ls
  induction ls with
  | nil => intro d; rfl
  | cons l rest ih =>
    intro d
    have hpass : self.greedyPass q l ep d = some (ep, d, false) := by
      rcases hemp l with h | h
      · simp only [Hnsw.greedyPass, hfind, Option.bind_eq_bind, Option.some_bind, h]
        rfl
      · simp only [Hnsw.greedyPass, hfind, Option.bind_eq_bind, Option.some_bind, h]
    have hloop : self.greedyLoop q l (self.nodes.length + 1) ep d
        = some (ep, d) := by
      simp only [Hnsw.greedyLoop, hpass, Option.bind_eq_bind, Option.some_bind]
      rfl
    simp only [Hnsw.greedyDescent, List.foldlM_cons]
    rw [hloop]
    exact ih d

/-- C5 (amended, exact arithmetic).  Self-recall holds for an index
holding a single record: searching the stored vector with `k = 1`
returns exactly the stored id at distance 0. -/
theorem single_self_recall (m efc id lvl : Nat) (v : List K) :
    ∃ I, Hnsw.build m efc [(id, v, lvl)] = some I ∧
      I.search v 1 = some [(id, 0)] := by
  refine ⟨oneRec m efc id lvl v, rfl, ?_⟩
  have hnodes : (oneRec m efc id lvl v).nodes
      = [(id, ⟨id, v, List.replicate (lvl + 1) []⟩)] := rfl
  have hep : (oneRec m efc id lvl v).entry_point = some id := rfl
  have hmaxl : (oneRec m efc id lvl v).max_layers = lvl := rfl
  have hefc : (oneRec m efc id lvl v).ef_construction = efc := rfl
  have hfindid : hmFind? [(id, (⟨id, v, List.replicate (lvl + 1) []⟩ : Node K))] id
      = some ⟨id, v, List.replicate (lvl + 1) []⟩ := by
    simp [hmFind?, List.find?]
  have hfindid' : hmFind? (oneRec m efc id lvl v).nodes id
      = some ⟨id, v, List.replicate (lvl + 1) []⟩ := by
    rw [hnodes]
    exact hfindid
  have hemp : ∀ l, (⟨id, v, List.replicate (lvl + 1) []⟩ : Node K).layers.get? l
      = some [] ∨
      (⟨id, v, List.replicate (lvl + 1) []⟩ : Node K).layers.get? l = none := by
    intro l
    rw [show (⟨id, v, List.replicate (lvl + 1) []⟩ : Node K).layers
        = List.replicate (lvl + 1) [] from rfl, get?_replicate]
    by_cases h : l < lvl + 1
    · rw [if_pos h]; exact Or.inl rfl
    · rw [if_neg h]; exact Or.inr rfl
  have hdesc := greedyDescent_empty (oneRec m efc id lvl v) (q := v)
      hfindid' hemp ((List.range' 1 lvl).reverse) (dist v v)
  have hloop : Hnsw.searchLayerLoop (oneRec m efc id lvl v)
      v (max efc 1) 0
      ([(id, (⟨id, v, List.replicate (lvl + 1) []⟩ : Node K))].length + 1)
      [id] [⟨id, dist v v⟩] [⟨id, dist v v⟩] = some [⟨id, dist v v⟩] := by
    simp [Hnsw.searchLayerLoop, hnodes, hfindid, get?_replicate]
  have hsl : Hnsw.search_layer (oneRec m efc id lvl v)
      v id (max efc 1) 0 = some [⟨id, dist v v⟩] := by
    simp only [Hnsw.search_layer, hnodes, hfindid, Option.bind_eq_bind,
      Option.some_bind, List.length_cons, List.length_nil]
    simp only [List.length_cons, List.length_nil] at hloop
    exact hloop
  rw [dist_self] at hdesc hsl
  simp only [Hnsw.search, hep, hmaxl, hefc, hnodes, hfindid, hdesc, hsl,
    Option.pure_def, Option.bind_eq_bind, Option.some_bind, List.map_cons,
    List.map_nil, List.reverse_cons, List.reverse_nil, List.nil_append,
    List.take_succ_cons, List.take_nil, dist_self]

/-- Witness for C5 (amended) at a concrete one-record build over `ℤ`. -/
theorem single_self_recall_witness :
    ∃ I, Hnsw.build 2 1 [(9, ([4, -4] : List Int), 0)] = some I ∧
      I.search [4, -4] 1 = some [(9, 0)] :=
  single_self_recall 2 1 9 0 [4, -4]

/-- C5 counterexample.  In the build `exMissOps` the record
`(2, [20])` was inserted, yet `search([20], 1)` — a self-recall query
for id 2 — returns id 3 at squared distance 324, not id 2: the only
in-edge of node 2 was pruned away and node 2 became unreachable. -/
theorem self_recall_counterexample :
    (2, ([20] : List Int), 0) ∈ exMissOps ∧
    (Hnsw.build 2 1 exMissOps).bind (fun I => I.search [20] 1)
      = some [(3, (324 : Int))] := by
  constructor
  · decide
  · decide

/-- C6 (amended, soundness half).  With distinct ids and `K` larger
than the number of stored vectors, search succeeds and returns each id
at most once, each returned pair carries the true (squared) distance of
a stored node, the list is sorted ascending by distance, and no
truncation occurs (`|r| ≤ |ops| < K`) — but the result need not contain
every stored item. -/
theorem search_at_large_k (m efc k : Nat) (q : List K)
    (ops : List (Nat × List K × Nat)) (hnd : (ops.map (·.1)).Nodup)
    (hk : ops.length < k) :
    ∃ I r, Hnsw.build m efc ops = some I ∧ I.search q k = some r ∧
      (r.map (·.1)).Nodup ∧
      (∀ pr ∈ r, ∃ n, hmFind? I.nodes pr.1 = some n ∧ pr.2 = dist q n.vector) ∧
      r.Pairwise (fun a b : Nat × K => a.2 ≤ b.2) ∧
      r.length ≤ ops.length ∧ r.length < k := by
  obtain ⟨I, hb, hinv, -, -, -, hkeys⟩ := build_spec ops hnd
  obtain ⟨r, hr, hnd', hmem, hpw, hlen⟩ := search_spec hinv q k
  have hlen' : I.nodes.length = ops.length := by
    have := congrArg List.length hkeys
    simpa [List.length_map] using this
  exact ⟨I, r, hb, hr, hnd', hmem, hpw, by omega, by omega⟩

/-- Witness for C6 (amended): the six-insert build queried with
`K = 7 > 6`. -/
theorem search_at_large_k_witness :
    ∃ I r, Hnsw.build 2 1 exMissOps = some I ∧ I.search [20] 7 = some r ∧
      (r.map (·.1)).Nodup ∧
      (∀ pr ∈ r, ∃ n, hmFind? I.nodes pr.1 = some n ∧ pr.2 = dist [20] n.vector) ∧
      r.Pairwise (fun a b : Nat × Int => a.2 ≤ b.2) ∧
      r.length ≤ exMissOps.length ∧ r.length < 7 :=
  search_at_large_k 2 1 7 [20] exMissOps (by decide) (by decide)

/-- C6 counterexample.  Six records are stored and `K = 7 > 6`, yet
search returns only five items: id 2 is absent from the result. -/
theorem exhaustive_search_counterexample :
    (Hnsw.build 2 1 exMissOps).map (fun I => I.nodes.length) = some 6 ∧
    (Hnsw.build 2 1 exMissOps).bind (fun I => I.search [20] 7)
      = some [(3, 324), (5, 361), (1, 400), (6, 441), (4, (484 : Int))] ∧
    (2 : Nat) ∉ ([(3, 324), (5, 361), (1, 400), (6, 441),
      (4, (484 : Int))].map (·.1)) := by
  refine ⟨by decide, by decide, by decide⟩

end HnswClaims

end VSE
